import Mathlib

/-!
# Verification of the Moor Walkers track pipeline (`process_map_data.py`)

Shallow embedding of the algorithmic core of `process_map_data.py`:
the Douglas-Peucker polyline simplifier, the surviving-point selection,
the distance / duration / smoothed ascent-descent metrics, the per-track
failure behaviour of `create_data`, and the per-cluster colour assignment.

Numeric conventions: Python floats are idealised as exact rationals (`ℚ`).
The source compares perpendicular distances `d = num / sqrt(den)` with each
other and with `epsilon`; since all the compared quantities are non-negative
and squaring is strictly monotone on non-negatives, the embedding works with
squared distances throughout and takes the *square* of epsilon as its
parameter (`epsSq`).  For every `epsilon ≥ 0` the control flow of the
embedded algorithm on `epsSq = epsilon²` is exactly the control flow of the
source on `epsilon`.
-/

/-- A latitude/longitude pair, as consumed by `douglas_peucker`. -/
abbrev Point : Type := ℚ × ℚ

/-- Square of `perpendicular_distance` from `process_map_data.py` (lines 68-78):
if `line_start == line_end` the (squared) point-to-point Euclidean distance,
otherwise the (squared) planar point-to-line distance `num² / den²`
with `num = |(y2-y1)x0 - (x2-x1)y0 + x2*y1 - y2*x1|` and
`den = sqrt((y2-y1)² + (x2-x1)²)`. -/
def perpendicular_distance_sq (pt line_start line_end : Point) : ℚ :=
  if line_start = line_end then
    (pt.1 - line_start.1) ^ 2 + (pt.2 - line_start.2) ^ 2
  else
    ((line_end.2 - line_start.2) * pt.1 - (line_end.1 - line_start.1) * pt.2 +
        line_end.1 * line_start.2 - line_end.2 * line_start.1) ^ 2 /
      ((line_end.2 - line_start.2) ^ 2 + (line_end.1 - line_start.1) ^ 2)

/-- One iteration of the scan in `simplify` (lines 83-89): the running pair is
`(dmax, index)` and is replaced by `(d i, i)` exactly when `d i > dmax`. -/
def fmStep (f : ℕ → ℚ) (acc : ℚ × ℕ) (i : ℕ) : ℚ × ℕ :=
  if acc.1 < f i then (f i, i) else acc

/-- The scan of `simplify` (lines 83-89): starting from `dmax = 0.0, index = 0`,
visit `i = 1, …, len(points) - 2` and record the first maximal squared
perpendicular distance of `points[i]` to the segment `points[0] — points[-1]`,
together with its index. -/
def findMax (points : List Point) : ℚ × ℕ :=
  (List.range' 1 (points.length - 2)).foldl
    (fmStep (fun i =>
      perpendicular_distance_sq (points.getD i (0, 0))
        (points.headD (0, 0)) (points.getLastD (0, 0))))
    ((0 : ℚ), (0 : ℕ))

/-- The recursion of `simplify` (lines 80-95), with explicit fuel so that the
definition is structural (and hence kernel-computable).  If `dmax > epsSq` it
returns `simplify(points[:index+1])[:-1] + simplify(points[index:])`, else
`[points[0], points[-1]]`.  The fuel-0 fallback coincides with the base case;
`douglas_peucker` supplies `points.length` fuel, which is shown below
(`simplifyFuel_congr`) to be enough for every `epsSq ≥ 0`.  (On `epsilon < 0`
the Python source does not terminate, so no fuel value is "right" there.) -/
def simplifyFuel : ℕ → List Point → ℚ → List Point
  | 0, points, _ => [points.headD (0, 0), points.getLastD (0, 0)]
  | fuel + 1, points, epsSq =>
    if epsSq < (findMax points).1 then
      (simplifyFuel fuel (points.take ((findMax points).2 + 1)) epsSq).dropLast ++
        simplifyFuel fuel (points.drop (findMax points).2) epsSq
    else
      [points.headD (0, 0), points.getLastD (0, 0)]

/-- `douglas_peucker` (lines 65-97): simplify a polyline with (squared)
tolerance `epsSq`. -/
def douglas_peucker (points : List Point) (epsSq : ℚ) : List Point :=
  simplifyFuel points.length points epsSq

/-- The square of the fixed tolerance `epsilon=0.0001` used at line 160. -/
def epsSq0 : ℚ := 1 / 100000000

/-- A raw GPX track point, as produced by the (external) parser: latitude and
longitude in degrees, elevation in metres, timestamp in seconds (rationals, so
that sub-second components are representable). -/
structure RawPoint where
  lat : ℚ
  lon : ℚ
  elevation : ℚ
  time : ℚ
deriving DecidableEq, Repr

instance : Inhabited RawPoint := ⟨⟨0, 0, 0, 0⟩⟩

/-- Line 160: the simplified coordinate list of a raw track. -/
def simplified_coords (raw_points : List RawPoint) : List Point :=
  douglas_peucker (raw_points.map fun p => (p.lat, p.lon)) epsSq0

/-- Line 161: `track_points`, the surviving points — the raw points whose
`(latitude, longitude)` pair occurs in the simplified coordinate list, in
their original order. -/
def track_points (raw_points : List RawPoint) : List RawPoint :=
  raw_points.filter fun p => decide ((p.lat, p.lon) ∈ simplified_coords raw_points)

/-- The per-track part of `create_data` (lines 147-350), reduced to the
operations that can raise, in source order, in the `Except` monad: with no
raw points the source crashes inside `douglas_peucker` (`points[0]` on an
empty list, line 95); with fewer than 2 surviving points the source crashes
constructing `LineString(coordinates)` (line 250).  On success it returns the
surviving points.  There is no `try`/`except` anywhere in `create_data`. -/
def processTrack (raw_points : List RawPoint) : Except String (List RawPoint) :=
  if raw_points.isEmpty then
    Except.error "list index out of range"
  else
    let tps := track_points raw_points
    if tps.length < 2 then
      Except.error "LineStrings must have at least 2 coordinate tuples"
    else
      Except.ok tps

/-- The `for filename in file_list:` loop of `create_data` (line 147).  The
loop body is not wrapped in any exception handler, so the first raised
exception propagates and aborts the whole run: the batch is `mapM` in
`Except`. -/
def create_data_batch (tracks : List (List RawPoint)) :
    Except String (List (List RawPoint)) :=
  tracks.mapM processTrack

/-- Modelled from the spec: the external geodesic distance provider (geopy's
`distance.distance`).  Only its unit relationship is fixed here: the `.miles`
reading of a distance is its `.km` reading divided by 1.609344 (kilometres
per international mile); the kilometre-valued function itself is an arbitrary
parameter `dKm` of the definitions below. -/
def milesOf (km : ℚ) : ℚ := km / (1609344 / 1000000)

/-- Lines 181-186: `total_distance_km`, the sum over consecutive surviving
points of their kilometre distance. -/
def total_distance_km (dKm : Point → Point → ℚ) (pts : List RawPoint) : ℚ :=
  (List.range (pts.length - 1)).foldl
    (fun acc i =>
      acc + dKm ((pts.getD i default).lat, (pts.getD i default).lon)
        ((pts.getD (i + 1) default).lat, (pts.getD (i + 1) default).lon))
    0

/-- Lines 189-194: `total_distance_mi`, the sum over the same consecutive
pairs of their mile distance. -/
def total_distance_mi (dKm : Point → Point → ℚ) (pts : List RawPoint) : ℚ :=
  (List.range (pts.length - 1)).foldl
    (fun acc i =>
      acc + milesOf (dKm ((pts.getD i default).lat, (pts.getD i default).lon)
        ((pts.getD (i + 1) default).lat, (pts.getD (i + 1) default).lon)))
    0

/-- Lines 291-295: the reported duration in whole seconds.
`duration = end_time - start_time` followed by
`timedelta(seconds=duration.seconds)`: Python's `timedelta.seconds` attribute
is the normalised seconds-within-day component, i.e. the floor of the exact
difference taken modulo 86400 (the days component is dropped). -/
def reported_duration (pts : List RawPoint) : ℤ :=
  (⌊(pts.getLastD default).time - (pts.headD default).time⌋).emod 86400

/-- Lines 198-230: the 7-point averaged elevation list `sevenpoint`, built by
one pass over the points; the branch cascade follows the source exactly. -/
def sevenpoint (elevs : List ℚ) : List ℚ :=
  (List.range elevs.length).map fun idx =>
    if idx = 0 ∨ idx = elevs.length - 1 then
      elevs.getD idx 0
    else if idx = 1 ∨ idx = elevs.length - 1 - 1 then
      (elevs.getD idx 0 + elevs.getD (idx - 1) 0 + elevs.getD (idx + 1) 0) / 3
    else if idx = 2 ∨ idx = elevs.length - 1 - 2 then
      (elevs.getD idx 0 + elevs.getD (idx - 1) 0 + elevs.getD (idx - 2) 0 +
        elevs.getD (idx + 1) 0 + elevs.getD (idx + 2) 0) / 5
    else
      (elevs.getD idx 0 + elevs.getD (idx - 1) 0 + elevs.getD (idx - 2) 0 +
        elevs.getD (idx - 3) 0 + elevs.getD (idx + 1) 0 +
        elevs.getD (idx + 2) 0 + elevs.getD (idx + 3) 0) / 7

/-- One iteration of the ascent/descent loop (lines 236-244): for `idx ≠ 0`
the elevation change from the previous smoothed value is added to the ascent
if positive and to the descent if negative. -/
def adStep (s : List ℚ) (acc : ℚ × ℚ) (idx : ℕ) : ℚ × ℚ :=
  if idx ≠ 0 then
    if 0 < s.getD idx 0 - s.getD (idx - 1) 0 then
      (acc.1 + (s.getD idx 0 - s.getD (idx - 1) 0), acc.2)
    else if s.getD idx 0 - s.getD (idx - 1) 0 < 0 then
      (acc.1, acc.2 + (s.getD idx 0 - s.getD (idx - 1) 0))
    else acc
  else acc

/-- Lines 232-244: accumulate `(total_ascent_m, total_descent_m)` over the
smoothed elevations (so the descent accumulates as a non-positive number). -/
def ascent_descent (s : List ℚ) : ℚ × ℚ :=
  (List.range s.length).foldl (adStep s) ((0 : ℚ), (0 : ℚ))

/-- Lines 362-374: the fixed 11-colour palette. -/
def colours : List String :=
  ["darkred", "green", "red", "blue", "gray", "purple", "black",
   "cadetblue", "darkgreen", "orange", "darkblue"]

/-- A feature, reduced to what the colour loop reads and writes: its cluster
label and its (initially absent) colour. -/
abbrev LFeature : Type := ℕ × Option String

/-- Lines 404-408: the inner loop of the colour assignment for one cluster
label `i`: walk the features in order with a counter starting at 0; a feature
of cluster `i` receives `colours[colour_idx % len(colours)]` and bumps the
counter, any other feature is left unchanged. -/
def assignStep (fs : List LFeature) (i : ℕ) : List LFeature :=
  (fs.foldl
    (fun (acc : List LFeature × ℕ) f =>
      if f.1 = i then
        (acc.1 ++ [(f.1, some (colours.getD (acc.2 % colours.length) ""))], acc.2 + 1)
      else
        (acc.1 ++ [f], acc.2))
    ([], 0)).1

/-- Lines 403-408: the colour assignment: the inner loop is run for every
cluster label `i = 0, …, num_clusters - 1` in ascending order. -/
def assignColours (numClusters : ℕ) (fs : List LFeature) : List LFeature :=
  (List.range numClusters).foldl assignStep fs

/-- The squared perpendicular distance of a point to the segment spanned by
the first and last point of `pts` — the quantity the scan of `simplify`
maximises.  (Proof-side abbreviation for the lambda inside `findMax`.) -/
def lineDistSq (pts : List Point) (p : Point) : ℚ :=
  perpendicular_distance_sq p (pts.headD (0, 0)) (pts.getLastD (0, 0))

/-- Proof-side closed form of one `assignStep` pass: rebuild the list with the
counter threaded through explicitly (`c` = number of cluster-`i` features
already seen). -/
def stepMap (i : ℕ) : ℕ → List LFeature → List LFeature
  | _, [] => []
  | c, f :: rest =>
    if f.1 = i then
      (f.1, some (colours.getD (c % colours.length) "")) :: stepMap i (c + 1) rest
    else
      f :: stepMap i c rest

/-! ## Generic facts about the scan `fmStep` -/

/-- The running maximum never decreases along the scan. -/
theorem fm_mono (f : ℕ → ℚ) (L : List ℕ) :
    ∀ acc : ℚ × ℕ, acc.1 ≤ (L.foldl (fmStep f) acc).1 := by
  induction L with
  | nil => intro acc; simp
  | cons x L ih =>
    intro acc
    simp only [List.foldl_cons]
    refine le_trans ?_ (ih (fmStep f acc x))
    by_cases h : acc.1 < f x
    · simp [fmStep, h, le_of_lt h]
    · simp [fmStep, h]

/-- Every scanned value is bounded by the final running maximum. -/
theorem fm_le (f : ℕ → ℚ) (L : List ℕ) :
    ∀ (acc : ℚ × ℕ) (i : ℕ), i ∈ L → f i ≤ (L.foldl (fmStep f) acc).1 := by
  induction L with
  | nil => intro acc i hi; simp at hi
  | cons x L ih =>
    intro acc i hi
    rcases List.mem_cons.mp hi with rfl | hi
    · simp only [List.foldl_cons]
      refine le_trans ?_ (fm_mono f L (fmStep f acc i))
      by_cases h : acc.1 < f i
      · simp [fmStep, h]
      · simp [fmStep, h]; exact le_of_not_lt h
    · exact ih (fmStep f acc x) i hi

/-- If the scan moved the index, the running maximum strictly increased. -/
theorem fm_strict (f : ℕ → ℚ) (L : List ℕ) :
    ∀ acc : ℚ × ℕ, (L.foldl (fmStep f) acc).2 ≠ acc.2 →
      acc.1 < (L.foldl (fmStep f) acc).1 := by
  induction L with
  | nil => intro acc h; simp at h
  | cons x L ih =>
    intro acc h
    simp only [List.foldl_cons] at h ⊢
    by_cases hx : acc.1 < f x
    · calc acc.1 < f x := hx
        _ = (fmStep f acc x).1 := by simp [fmStep, hx]
        _ ≤ _ := fm_mono f L (fmStep f acc x)
    · have hacc : fmStep f acc x = acc := by simp [fmStep, hx]
      rw [hacc] at h ⊢
      exact ih acc h

/-- The scan result is either the initial pair or records a scanned index
together with its value. -/
theorem fm_mem (f : ℕ → ℚ) (L : List ℕ) :
    ∀ acc : ℚ × ℕ, L.foldl (fmStep f) acc = acc ∨
      ((L.foldl (fmStep f) acc).2 ∈ L ∧
        (L.foldl (fmStep f) acc).1 = f (L.foldl (fmStep f) acc).2) := by
  induction L with
  | nil => intro acc; left; rfl
  | cons x L ih =>
    intro acc
    simp only [List.foldl_cons]
    rcases ih (fmStep f acc x) with h | h
    · by_cases hx : acc.1 < f x
      · right
        rw [h]
        constructor
        · simp [fmStep, hx]
        · simp [fmStep, hx]
      · left
        rw [h]
        simp [fmStep, hx]
    · right
      exact ⟨List.mem_cons_of_mem x h.1, h.2⟩

/-- First-argmax property of the scan: a scanned index strictly left of the
final index has a strictly smaller value (the scan only replaces the running
pair on a strict increase). -/
theorem fm_first (f : ℕ → ℚ) (L : List ℕ) :
    ∀ acc : ℚ × ℕ, L.Pairwise (· < ·) → (∀ j ∈ L, acc.2 < j) →
      ∀ i ∈ L, i < (L.foldl (fmStep f) acc).2 →
        f i < (L.foldl (fmStep f) acc).1 := by
  induction L with
  | nil => intro acc _ _ i hi; simp at hi
  | cons x L ih =>
    intro acc hpw hacc i hi hilt
    have hpwL : L.Pairwise (· < ·) := (List.pairwise_cons.mp hpw).2
    have hxL : ∀ y ∈ L, x < y := (List.pairwise_cons.mp hpw).1
    have haccL : ∀ j ∈ L, (fmStep f acc x).2 < j := by
      intro j hj
      by_cases hx : acc.1 < f x
      · simpa [fmStep, hx] using hxL j hj
      · simp only [fmStep, hx, if_neg hx]
        exact lt_trans (hacc x (List.mem_cons_self x L)) (hxL j hj)
    simp only [List.foldl_cons] at hilt ⊢
    rcases List.mem_cons.mp hi with rfl | hiL
    · by_cases hx : acc.1 < f i
      · have hstep : fmStep f acc i = (f i, i) := by simp [fmStep, hx]
        rw [hstep] at hilt ⊢
        have hne : (L.foldl (fmStep f) (f i, i)).2 ≠ (f i, i).2 := by
          intro h
          rw [h] at hilt
          exact lt_irrefl i hilt
        simpa using fm_strict f L (f i, i) hne
      · have hstep : fmStep f acc i = acc := by simp [fmStep, hx]
        rw [hstep] at hilt ⊢
        have hne : (L.foldl (fmStep f) acc).2 ≠ acc.2 := by
          intro h
          exact absurd (h ▸ hilt) (not_lt_of_ge (le_of_lt (hacc i (List.mem_cons_self i L))))
        exact lt_of_le_of_lt (le_of_not_lt hx) (fm_strict f L acc hne)
    · exact ih (fmStep f acc x) hpwL haccL i hiL hilt

/-- If every scanned value stays strictly below `c` and the scan starts below
`c`, it ends below `c`. -/
theorem fm_below (f : ℕ → ℚ) (c : ℚ) (L : List ℕ) :
    ∀ acc : ℚ × ℕ, (∀ i ∈ L, f i < c) → acc.1 < c →
      (L.foldl (fmStep f) acc).1 < c := by
  induction L with
  | nil => intro acc _ h; exact h
  | cons x L ih =>
    intro acc hL hacc
    simp only [List.foldl_cons]
    refine ih (fmStep f acc x) (fun i hi => hL i (List.mem_cons_of_mem x hi)) ?_
    by_cases hx : acc.1 < f x
    · simpa [fmStep, hx] using hL x (List.mem_cons_self x L)
    · simpa [fmStep, hx] using hacc

/-- If no scanned value exceeds the running maximum, the scan is inert. -/
theorem fm_stay (f : ℕ → ℚ) (L : List ℕ) :
    ∀ acc : ℚ × ℕ, (∀ i ∈ L, f i ≤ acc.1) → L.foldl (fmStep f) acc = acc := by
  induction L with
  | nil => intro acc _; rfl
  | cons x L ih =>
    intro acc hL
    simp only [List.foldl_cons]
    have hx : ¬ acc.1 < f x := not_lt_of_ge (hL x (List.mem_cons_self x L))
    have hstep : fmStep f acc x = acc := by simp [fmStep, hx]
    rw [hstep]
    exact ih acc fun i hi => hL i (List.mem_cons_of_mem x hi)

/-- Pivot form of the scan: if everything before `k` is strictly below `f k`
and nothing after exceeds it, the scan returns `(f k, k)`. -/
theorem fm_pivot (f : ℕ → ℚ) (L₁ L₂ : List ℕ) (k : ℕ) (acc : ℚ × ℕ)
    (h₁ : ∀ i ∈ L₁, f i < f k) (h₂ : ∀ i ∈ L₂, f i ≤ f k)
    (hacc : acc.1 < f k) :
    (L₁ ++ k :: L₂).foldl (fmStep f) acc = (f k, k) := by
  rw [List.foldl_append]
  have hmid : (L₁.foldl (fmStep f) acc).1 < f k := fm_below f (f k) L₁ acc h₁ hacc
  simp only [List.foldl_cons]
  have hstep : fmStep f (L₁.foldl (fmStep f) acc) k = (f k, k) := by
    simp [fmStep, hmid]
  rw [hstep]
  exact fm_stay f L₂ (f k, k) (by simpa using h₂)

/-! ## Properties of `findMax` -/

theorem headD_eq_getD {α : Type} (l : List α) (d : α) : l.headD d = l.getD 0 d := by
  cases l <;> simp [List.getD]

theorem getLastD_eq_getD {α : Type} (l : List α) (d : α) :
    l.getLastD d = l.getD (l.length - 1) d := by
  rw [List.getLastD_eq_getLast?, List.getLast?_eq_getElem?, List.getD_eq_getElem?_getD]

theorem findMax_eq (pts : List Point) :
    findMax pts = (List.range' 1 (pts.length - 2)).foldl
      (fmStep (fun i => lineDistSq pts (pts.getD i (0, 0)))) ((0 : ℚ), (0 : ℕ)) := rfl

theorem findMax_fst_nonneg (pts : List Point) : 0 ≤ (findMax pts).1 := by
  rw [findMax_eq]
  exact fm_mono _ _ ((0 : ℚ), (0 : ℕ))

theorem findMax_snd_le (pts : List Point) : (findMax pts).2 ≤ pts.length - 2 := by
  rw [findMax_eq]
  rcases fm_mem (fun i => lineDistSq pts (pts.getD i (0, 0)))
      (List.range' 1 (pts.length - 2)) ((0 : ℚ), (0 : ℕ)) with h | h
  · rw [h]
    exact Nat.zero_le _
  · have := List.mem_range'_1.mp h.1
    omega

/-- When the scan found a positive maximum, its index is a genuine interior
index and the maximum is the distance at that index. -/
theorem findMax_pos_spec (pts : List Point) (h : 0 < (findMax pts).1) :
    1 ≤ (findMax pts).2 ∧ (findMax pts).2 ≤ pts.length - 2 ∧
      (findMax pts).1 = lineDistSq pts (pts.getD (findMax pts).2 (0, 0)) := by
  rw [findMax_eq] at h ⊢
  rcases fm_mem (fun i => lineDistSq pts (pts.getD i (0, 0)))
      (List.range' 1 (pts.length - 2)) ((0 : ℚ), (0 : ℕ)) with heq | hmem
  · rw [heq] at h
    exact absurd h (lt_irrefl 0)
  · have hb := List.mem_range'_1.mp hmem.1
    exact ⟨hb.1, by omega, hmem.2⟩

/-- Every interior distance is bounded by the scanned maximum. -/
theorem findMax_le (pts : List Point) (i : ℕ) (h1 : 1 ≤ i) (h2 : i ≤ pts.length - 2) :
    lineDistSq pts (pts.getD i (0, 0)) ≤ (findMax pts).1 := by
  rw [findMax_eq]
  refine fm_le _ _ _ i (List.mem_range'_1.mpr ⟨h1, ?_⟩)
  omega

/-- First-argmax: interior distances strictly left of the scanned index are
strictly below the scanned maximum. -/
theorem findMax_first (pts : List Point) (i : ℕ) (h1 : 1 ≤ i)
    (h2 : i < (findMax pts).2) :
    lineDistSq pts (pts.getD i (0, 0)) < (findMax pts).1 := by
  have hle := findMax_snd_le pts
  have hpair := List.pairwise_lt_range' 1 (pts.length - 2)
  have hacc : ∀ j ∈ List.range' 1 (pts.length - 2), (((0 : ℚ), (0 : ℕ))).2 < j := by
    intro j hj
    have h := (List.mem_range'_1.mp hj).1
    simpa using h
  have hmem : i ∈ List.range' 1 (pts.length - 2) := by
    rw [List.mem_range'_1]
    exact ⟨h1, by omega⟩
  exact fm_first (fun j => lineDistSq pts (pts.getD j (0, 0)))
    (List.range' 1 (pts.length - 2)) (((0 : ℚ), (0 : ℕ))) hpair hacc i hmem h2

/-! ## Structural properties of `simplifyFuel` / `douglas_peucker` -/

theorem simplifyFuel_length (fuel : ℕ) :
    ∀ (pts : List Point) (epsSq : ℚ), 2 ≤ (simplifyFuel fuel pts epsSq).length := by
  induction fuel with
  | zero => intro pts epsSq; simp [simplifyFuel]
  | succ fuel ih =>
    intro pts epsSq
    rw [simplifyFuel]
    split
    · rw [List.length_append, List.length_dropLast]
      have h1 := ih (pts.take ((findMax pts).2 + 1)) epsSq
      have h2 := ih (pts.drop (findMax pts).2) epsSq
      omega
    · simp

theorem simplifyFuel_ne_nil (fuel : ℕ) (pts : List Point) (epsSq : ℚ) :
    simplifyFuel fuel pts epsSq ≠ [] := by
  have := simplifyFuel_length fuel pts epsSq
  intro h
  rw [h] at this
  simp at this

theorem simplifyFuel_head? (fuel : ℕ) :
    ∀ (pts : List Point) (epsSq : ℚ), pts ≠ [] →
      (simplifyFuel fuel pts epsSq).head? = pts.head? := by
  induction fuel with
  | zero =>
    intro pts epsSq h
    cases pts with
    | nil => exact absurd rfl h
    | cons a l => simp [simplifyFuel]
  | succ fuel ih =>
    intro pts epsSq h
    rw [simplifyFuel]
    split
    · have htake : pts.take ((findMax pts).2 + 1) ≠ [] := by
        cases pts with
        | nil => exact absurd rfl h
        | cons a l => simp
      have hlen := simplifyFuel_length fuel (pts.take ((findMax pts).2 + 1)) epsSq
      rw [List.head?_append]
      have hdl : (simplifyFuel fuel (pts.take ((findMax pts).2 + 1)) epsSq).dropLast.head? =
          (simplifyFuel fuel (pts.take ((findMax pts).2 + 1)) epsSq).head? := by
        rw [List.dropLast_eq_take]
        rw [List.head?_take]
        split
        · omega
        · rfl
      rw [hdl, ih _ _ htake, List.head?_take]
      have hne : ¬ ((findMax pts).2 + 1 = 0) := by omega
      rw [if_neg hne]
      cases pts with
      | nil => exact absurd rfl h
      | cons a l => simp
    · cases pts with
      | nil => exact absurd rfl h
      | cons a l => simp [simplifyFuel]

theorem simplifyFuel_getLast? (fuel : ℕ) :
    ∀ (pts : List Point) (epsSq : ℚ), pts ≠ [] →
      (simplifyFuel fuel pts epsSq).getLast? = pts.getLast? := by
  induction fuel with
  | zero =>
    intro pts epsSq h
    cases pts with
    | nil => exact absurd rfl h
    | cons a l =>
      simp [simplifyFuel, List.getLastD_eq_getLast?, List.getLast?_eq_getElem?]
  | succ fuel ih =>
    intro pts epsSq h
    have hlen : 1 ≤ pts.length := by
      cases pts with
      | nil => exact absurd rfl h
      | cons a l => simp
    rw [simplifyFuel]
    split
    · have hidx : (findMax pts).2 < pts.length := by
        have := findMax_snd_le pts
        omega
      have hdrop : pts.drop ((findMax pts).2) ≠ [] := by
        intro hd
        have := congrArg List.length hd
        simp at this
        omega
      rw [List.getLast?_append]
      rw [ih _ _ hdrop]
      rw [List.getLast?_drop, if_neg (by omega)]
      have : (pts.drop ((findMax pts).2)).getLast? ≠ none := by
        rw [List.getLast?_drop, if_neg (by omega)]
        intro hnone
        rw [List.getLast?_eq_getElem?] at hnone
        rw [List.getElem?_eq_none_iff] at hnone
        omega
      cases hgl : pts.getLast? with
      | none =>
        rw [List.getLast?_drop, if_neg (by omega)] at this
        exact absurd hgl this
      | some x => rfl
    · cases pts with
      | nil => exact absurd rfl h
      | cons a l =>
        simp [List.getLastD_eq_getLast?, List.getLast?_eq_getElem?]

theorem findMax_nil : findMax ([] : List Point) = (0, 0) := rfl

theorem simplifyFuel_nil (fuel : ℕ) (epsSq : ℚ) (hε : 0 ≤ epsSq) :
    simplifyFuel fuel ([] : List Point) epsSq = [(0, 0), (0, 0)] := by
  cases fuel with
  | zero => rfl
  | succ fuel =>
    rw [simplifyFuel]
    rw [findMax_nil]
    rw [if_neg (by exact not_lt_of_ge hε)]
    rfl

/-- Any fuel at least the list length computes the same simplification, for a
non-negative (squared) tolerance.  In particular `douglas_peucker`'s
`points.length` fuel is enough. -/
theorem simplifyFuel_congr (epsSq : ℚ) (hε : 0 ≤ epsSq) :
    ∀ (n : ℕ) (pts : List Point) (f₁ f₂ : ℕ), pts.length ≤ n →
      pts.length ≤ f₁ → pts.length ≤ f₂ →
      simplifyFuel f₁ pts epsSq = simplifyFuel f₂ pts epsSq := by
  intro n
  induction n with
  | zero =>
    intro pts f₁ f₂ hn _ _
    have : pts = [] := List.length_eq_zero.mp (Nat.le_zero.mp hn)
    subst this
    rw [simplifyFuel_nil _ _ hε, simplifyFuel_nil _ _ hε]
  | succ n ih =>
    intro pts f₁ f₂ hn h1 h2
    by_cases hnil : pts = []
    · subst hnil
      rw [simplifyFuel_nil _ _ hε, simplifyFuel_nil _ _ hε]
    · have hpos : 1 ≤ pts.length := by
        cases pts with
        | nil => exact absurd rfl hnil
        | cons a l => simp
      obtain ⟨g₁, rfl⟩ : ∃ g, f₁ = g + 1 := ⟨f₁ - 1, by omega⟩
      obtain ⟨g₂, rfl⟩ : ∃ g, f₂ = g + 1 := ⟨f₂ - 1, by omega⟩
      rw [simplifyFuel, simplifyFuel]
      by_cases hd : epsSq < (findMax pts).1
      · rw [if_pos hd, if_pos hd]
        have hpos2 : 0 < (findMax pts).1 := lt_of_le_of_lt hε hd
        obtain ⟨hi1, hi2, _⟩ := findMax_pos_spec pts hpos2
        have hlen3 : 3 ≤ pts.length := by omega
        have htl : (pts.take ((findMax pts).2 + 1)).length = (findMax pts).2 + 1 := by
          rw [List.length_take]
          omega
        have hdl : (pts.drop ((findMax pts).2)).length = pts.length - (findMax pts).2 := by
          rw [List.length_drop]
        congr 1
        · congr 1
          refine ih (pts.take ((findMax pts).2 + 1)) g₁ g₂ ?_ ?_ ?_ <;> omega
        · refine ih (pts.drop ((findMax pts).2)) g₁ g₂ ?_ ?_ ?_ <;> omega
      · rw [if_neg hd, if_neg hd]

/-- Recursion equation for `douglas_peucker` itself (for non-negative squared
tolerance): exactly the shape of the source's `simplify`. -/
theorem douglas_peucker_unfold (pts : List Point) (epsSq : ℚ) (hε : 0 ≤ epsSq) :
    douglas_peucker pts epsSq =
      if epsSq < (findMax pts).1 then
        (douglas_peucker (pts.take ((findMax pts).2 + 1)) epsSq).dropLast ++
          douglas_peucker (pts.drop ((findMax pts).2)) epsSq
      else
        [pts.headD (0, 0), pts.getLastD (0, 0)] := by
  unfold douglas_peucker
  by_cases hnil : pts = []
  · subst hnil
    rw [simplifyFuel_nil _ _ hε, findMax_nil]
    rw [if_neg (by exact not_lt_of_ge hε)]
    rfl
  · have hpos : 1 ≤ pts.length := by
      cases pts with
      | nil => exact absurd rfl hnil
      | cons a l => simp
    obtain ⟨m, hm⟩ : ∃ m, pts.length = m + 1 := ⟨pts.length - 1, by omega⟩
    rw [hm, simplifyFuel]
    by_cases hd : epsSq < (findMax pts).1
    · rw [if_pos hd, if_pos hd]
      have hpos2 : 0 < (findMax pts).1 := lt_of_le_of_lt hε hd
      obtain ⟨hi1, hi2, _⟩ := findMax_pos_spec pts hpos2
      have hlen3 : 3 ≤ pts.length := by omega
      have htl : (pts.take ((findMax pts).2 + 1)).length = (findMax pts).2 + 1 := by
        rw [List.length_take]
        omega
      have hdl : (pts.drop ((findMax pts).2)).length = pts.length - (findMax pts).2 :=
        List.length_drop _ _
      congr 1
      · congr 1
        refine simplifyFuel_congr epsSq hε pts.length (pts.take ((findMax pts).2 + 1))
          m _ ?_ ?_ ?_ <;> omega
      · refine simplifyFuel_congr epsSq hε pts.length (pts.drop ((findMax pts).2))
          m _ ?_ ?_ ?_ <;> omega
    · rw [if_neg hd, if_neg hd]

theorem douglas_peucker_length (pts : List Point) (epsSq : ℚ) :
    2 ≤ (douglas_peucker pts epsSq).length :=
  simplifyFuel_length _ _ _

theorem douglas_peucker_head? (pts : List Point) (epsSq : ℚ) (h : pts ≠ []) :
    (douglas_peucker pts epsSq).head? = pts.head? :=
  simplifyFuel_head? _ _ _ h

theorem douglas_peucker_getLast? (pts : List Point) (epsSq : ℚ) (h : pts ≠ []) :
    (douglas_peucker pts epsSq).getLast? = pts.getLast? :=
  simplifyFuel_getLast? _ _ _ h

/-- C1: for every input of at least 2 points and every non-negative (squared)
tolerance, the Douglas-Peucker output starts with the first input point and
ends with the last input point. -/
theorem C1_dp_preserves_endpoints (pts : List Point) (epsSq : ℚ)
    (hlen : 2 ≤ pts.length) (hε : 0 ≤ epsSq) :
    (douglas_peucker pts epsSq).head? = pts.head? ∧
      (douglas_peucker pts epsSq).getLast? = pts.getLast? := by
  have hne : pts ≠ [] := by
    intro h
    rw [h] at hlen
    simp at hlen
  exact ⟨douglas_peucker_head? pts epsSq hne, douglas_peucker_getLast? pts epsSq hne⟩

/-- Witness for C1 at a concrete input. -/
theorem C1_dp_preserves_endpoints_witness :
    (douglas_peucker [((0 : ℚ), (0 : ℚ)), (1, 1)] 0).head? = some (0, 0) ∧
      (douglas_peucker [((0 : ℚ), (0 : ℚ)), (1, 1)] 0).getLast? = some (1, 1) := by
  have h := C1_dp_preserves_endpoints [((0 : ℚ), (0 : ℚ)), (1, 1)] 0 (by simp) (le_refl 0)
  simpa using h

/-- Output length of the simplifier is monotonically non-increasing in the
(squared) tolerance. -/
theorem dp_length_mono (pts : List Point) (e1 e2 : ℚ) (he1 : 0 ≤ e1) (h12 : e1 ≤ e2) :
    (douglas_peucker pts e2).length ≤ (douglas_peucker pts e1).length := by
  have he2 : 0 ≤ e2 := le_trans he1 h12
  generalize hn : pts.length = n
  induction n using Nat.strong_induction_on generalizing pts with
  | _ n ih =>
    rw [douglas_peucker_unfold pts e1 he1, douglas_peucker_unfold pts e2 he2]
    by_cases hd2 : e2 < (findMax pts).1
    · have hd1 : e1 < (findMax pts).1 := lt_of_le_of_lt h12 hd2
      rw [if_pos hd2, if_pos hd1]
      have hpos : 0 < (findMax pts).1 := lt_of_le_of_lt he1 hd1
      obtain ⟨hi1, hi2, _⟩ := findMax_pos_spec pts hpos
      have hlen3 : 3 ≤ pts.length := by omega
      have htl : (pts.take ((findMax pts).2 + 1)).length = (findMax pts).2 + 1 := by
        rw [List.length_take]; omega
      have hdl : (pts.drop ((findMax pts).2)).length = pts.length - (findMax pts).2 :=
        List.length_drop _ _
      have ht := ih ((findMax pts).2 + 1) (by omega) (pts.take ((findMax pts).2 + 1)) htl
      have hd := ih (pts.length - (findMax pts).2) (by omega) (pts.drop ((findMax pts).2)) hdl
      have l1 := douglas_peucker_length (pts.take ((findMax pts).2 + 1)) e1
      have l2 := douglas_peucker_length (pts.take ((findMax pts).2 + 1)) e2
      rw [List.length_append, List.length_append, List.length_dropLast, List.length_dropLast]
      omega
    · rw [if_neg hd2]
      by_cases hd1 : e1 < (findMax pts).1
      · rw [if_pos hd1]
        have := douglas_peucker_length (pts.take ((findMax pts).2 + 1)) e1
        have := douglas_peucker_length (pts.drop ((findMax pts).2)) e1
        rw [List.length_append, List.length_dropLast]
        simp only [List.length_cons, List.length_nil]
        omega
      · rw [if_neg hd1]

/-- C8: for a fixed input of at least 2 points, the Douglas-Peucker output
length is monotonically non-increasing in the tolerance: for squared
tolerances `0 ≤ e1 ≤ e2` (i.e. tolerances `0 ≤ ε1 ≤ ε2`), the output at `e2`
has at most as many points as the output at `e1`. -/
theorem C8_dp_length_antitone (pts : List Point) (e1 e2 : ℚ)
    (hlen : 2 ≤ pts.length) (he1 : 0 ≤ e1) (h12 : e1 ≤ e2) :
    (douglas_peucker pts e2).length ≤ (douglas_peucker pts e1).length :=
  dp_length_mono pts e1 e2 he1 h12

/-- Witness for C8 at a concrete input: a 3-point corner with tolerances
`0` and `4` (squared).  The length at the larger tolerance is at most the
length at the smaller one. -/
theorem C8_dp_length_antitone_witness :
    (douglas_peucker [((0 : ℚ), (0 : ℚ)), (1, 1), (2, 0)] 4).length ≤
      (douglas_peucker [((0 : ℚ), (0 : ℚ)), (1, 1), (2, 0)] 0).length :=
  C8_dp_length_antitone [((0 : ℚ), (0 : ℚ)), (1, 1), (2, 0)] 0 4 (by simp)
    (le_refl 0) (by norm_num)

/-! ## The simplified polyline is a subsequence of the input -/

theorem endpoints_sublist {α : Type} (l : List α) (d : α) (h : 2 ≤ l.length) :
    List.Sublist [l.headD d, l.getLastD d] l := by
  match l, h with
  | a :: b :: t, _ =>
    simp only [List.headD_cons]
    refine List.Sublist.cons₂ a ?_
    rw [List.singleton_sublist]
    have hgl : (a :: b :: t).getLastD d = (b :: t).getLast (by simp) := by
      rw [List.getLastD_eq_getLast?, List.getLast?_cons_cons,
        List.getLast?_eq_getLast _ (by simp)]
      rfl
    rw [hgl]
    exact List.getLast_mem _

theorem dropLast_sublist_of_concat {α : Type} (l m : List α) (x : α)
    (h : l.Sublist (m ++ [x])) : l.dropLast.Sublist m := by
  rcases List.sublist_append_iff.mp h with ⟨l₁, l₂, rfl, h₁, h₂⟩
  rcases List.sublist_singleton.mp h₂ with rfl | rfl
  · rw [List.append_nil]
    exact List.Sublist.trans (List.dropLast_sublist l₁) h₁
  · rw [List.dropLast_concat]
    exact h₁

theorem simplifyFuel_sublist (epsSq : ℚ) (hε : 0 ≤ epsSq) :
    ∀ (fuel : ℕ) (pts : List Point), 2 ≤ pts.length →
      (simplifyFuel fuel pts epsSq).Sublist pts := by
  intro fuel
  induction fuel with
  | zero =>
    intro pts h
    exact endpoints_sublist pts (0, 0) h
  | succ fuel ih =>
    intro pts h
    rw [simplifyFuel]
    split
    · rename_i hd
      have hpos : 0 < (findMax pts).1 := lt_of_le_of_lt hε hd
      obtain ⟨hi1, hi2, _⟩ := findMax_pos_spec pts hpos
      have hlen3 : 3 ≤ pts.length := by omega
      have htl : (pts.take ((findMax pts).2 + 1)).length = (findMax pts).2 + 1 := by
        rw [List.length_take]; omega
      have hdl : (pts.drop ((findMax pts).2)).length = pts.length - (findMax pts).2 :=
        List.length_drop _ _
      have ihA := ih (pts.take ((findMax pts).2 + 1)) (by omega)
      have ihB := ih (pts.drop ((findMax pts).2)) (by omega)
      have htake : pts.take ((findMax pts).2 + 1) =
          pts.take ((findMax pts).2) ++ [pts.getD ((findMax pts).2) (0, 0)] := by
        rw [List.take_succ]
        congr 1
        rw [List.getElem?_eq_getElem (by omega : (findMax pts).2 < pts.length)]
        rw [List.getD_eq_getElem _ _ (by omega : (findMax pts).2 < pts.length)]
        rfl
      rw [htake] at ihA
      have hA : ((simplifyFuel fuel (pts.take ((findMax pts).2 + 1)) epsSq).dropLast).Sublist
          (pts.take ((findMax pts).2)) := by
        rw [htake]
        exact dropLast_sublist_of_concat _ _ _ ihA
      have := List.Sublist.append hA ihB
      rw [List.take_append_drop] at this
      exact this
    · exact endpoints_sublist pts (0, 0) h

theorem douglas_peucker_sublist (pts : List Point) (epsSq : ℚ) (hε : 0 ≤ epsSq)
    (h : 2 ≤ pts.length) : (douglas_peucker pts epsSq).Sublist pts :=
  simplifyFuel_sublist epsSq hε pts.length pts h

/-! ## Distance values at the segment endpoints -/

theorem pdsq_start_zero (a b : Point) : perpendicular_distance_sq a a b = 0 := by
  unfold perpendicular_distance_sq
  split
  · ring_nf
  · have h : ((b.2 - a.2) * a.1 - (b.1 - a.1) * a.2 + b.1 * a.2 - b.2 * a.1) = 0 := by ring
    rw [h]
    ring_nf

theorem pdsq_end_zero (a b : Point) : perpendicular_distance_sq b a b = 0 := by
  unfold perpendicular_distance_sq
  split
  · rename_i h
    rw [h]
    ring_nf
  · have h : ((b.2 - a.2) * b.1 - (b.1 - a.1) * b.2 + b.1 * a.2 - b.2 * a.1) = 0 := by ring
    rw [h]
    ring_nf

theorem lineDistSq_head_zero (pts : List Point) :
    lineDistSq pts (pts.headD (0, 0)) = 0 :=
  pdsq_start_zero _ _

theorem lineDistSq_last_zero (pts : List Point) :
    lineDistSq pts (pts.getLastD (0, 0)) = 0 :=
  pdsq_end_zero _ _

/-- Any member of the input list has distance at most the scanned maximum,
provided that maximum is positive. -/
theorem lineDistSq_mem_le (pts : List Point) (v : Point) (hv : v ∈ pts)
    (hpos : 0 < (findMax pts).1) : lineDistSq pts v ≤ (findMax pts).1 := by
  obtain ⟨j, hj, rfl⟩ := List.mem_iff_getElem.mp hv
  rcases Nat.eq_zero_or_pos j with rfl | hj1
  · have h0 : pts[0] = pts.headD (0, 0) := by
      rw [headD_eq_getD, List.getD_eq_getElem _ _ hj]
    rw [h0, lineDistSq_head_zero]
    exact le_of_lt hpos
  · rcases Nat.lt_or_ge j (pts.length - 1) with hj2 | hj2
    · have hvd : pts[j] = pts.getD j (0, 0) := (List.getD_eq_getElem _ _ hj).symm
      rw [hvd]
      exact findMax_le pts j hj1 (by omega)
    · have hjl : j = pts.length - 1 := by omega
      have h0 : pts[j] = pts.getLastD (0, 0) := by
        rw [getLastD_eq_getD, List.getD_eq_getElem _ _ (by omega)]
        subst hjl
        rfl
      rw [h0, lineDistSq_last_zero]
      exact le_of_lt hpos

theorem take_succ_getD {α : Type} (l : List α) (n : ℕ) (d : α) (h : n < l.length) :
    l.take (n + 1) = l.take n ++ [l.getD n d] := by
  rw [List.take_succ]
  congr 1
  rw [List.getElem?_eq_getElem h, List.getD_eq_getElem _ _ h]
  rfl

/-- Key step for idempotence: every interior point of the simplification of
`points[:index+1]` has distance (to the full segment) strictly below the
scanned maximum.  (Its value is the value of an original point strictly left
of `index`: the recorded index is the *first* argmax, and a duplicate of
`points[index]` strictly inside the left part would contradict the
multiplicity bound of the sublist relation.) -/
theorem rec1_interior_lt (pts : List Point) (epsSq : ℚ) (hε : 0 ≤ epsSq)
    (hpos : 0 < (findMax pts).1) (i : ℕ) (h1 : 1 ≤ i)
    (h2 : i < (douglas_peucker (pts.take ((findMax pts).2 + 1)) epsSq).length - 1) :
    lineDistSq pts
      ((douglas_peucker (pts.take ((findMax pts).2 + 1)) epsSq).getD i (0, 0)) <
      (findMax pts).1 := by
  obtain ⟨hi1, hi2, hval⟩ := findMax_pos_spec pts hpos
  have hlen3 : 3 ≤ pts.length := by omega
  have hklen : (findMax pts).2 < pts.length := by omega
  have htl : (pts.take ((findMax pts).2 + 1)).length = (findMax pts).2 + 1 := by
    rw [List.length_take]; omega
  have hAsub : (douglas_peucker (pts.take ((findMax pts).2 + 1)) epsSq).Sublist
      (pts.take ((findMax pts).2 + 1)) :=
    douglas_peucker_sublist _ _ hε (by omega)
  have hAlen : 2 ≤ (douglas_peucker (pts.take ((findMax pts).2 + 1)) epsSq).length :=
    douglas_peucker_length _ _
  set A := douglas_peucker (pts.take ((findMax pts).2 + 1)) epsSq with hA
  have hiA : i < A.length := by omega
  set v := A.getD i (0, 0) with hv
  have hvA : A[i] = v := (List.getD_eq_getElem _ _ hiA).symm
  have hvmemA : v ∈ A := by
    rw [← hvA]
    exact List.getElem_mem _
  have hvtake : v ∈ pts.take ((findMax pts).2 + 1) := hAsub.subset hvmemA
  have htake : pts.take ((findMax pts).2 + 1) =
      pts.take ((findMax pts).2) ++ [pts.getD ((findMax pts).2) (0, 0)] :=
    take_succ_getD pts _ (0, 0) hklen
  have hjk : v ∈ pts.take ((findMax pts).2) := by
    rw [htake] at hvtake
    rcases List.mem_append.mp hvtake with h | h
    · exact h
    · have hvk : v = pts.getD ((findMax pts).2) (0, 0) := by simpa using h
      have htkne : pts.take ((findMax pts).2 + 1) ≠ [] := by
        intro hcon
        have := congrArg List.length hcon
        rw [htl] at this
        simp at this
      have hAlast : A.getLast? = some (pts.getD ((findMax pts).2) (0, 0)) := by
        rw [hA, douglas_peucker_getLast? _ _ htkne, htake, List.getLast?_append]
        rfl
      have hv1 : v ∈ A.take (i + 1) := by
        rw [List.mem_iff_getElem]
        refine ⟨i, by rw [List.length_take]; omega, ?_⟩
        rw [List.getElem_take]
        exact hvA
      have hv2 : v ∈ A.drop (i + 1) := by
        have hd : (A.drop (i + 1)).getLast? = some v := by
          rw [List.getLast?_drop, if_neg (by omega), hAlast, hvk]
        exact List.mem_of_mem_getLast? hd
      have hcA : 2 ≤ List.count v A := by
        have hc : List.count v A =
            List.count v (A.take (i + 1)) + List.count v (A.drop (i + 1)) := by
          rw [← List.count_append, List.take_append_drop]
        have c1 : 0 < List.count v (A.take (i + 1)) := List.count_pos_iff.mpr hv1
        have c2 : 0 < List.count v (A.drop (i + 1)) := List.count_pos_iff.mpr hv2
        omega
      have hcle : List.count v A ≤ List.count v (pts.take ((findMax pts).2 + 1)) :=
        hAsub.count_le v
      rw [htake, List.count_append] at hcle
      have hc1 : List.count v [pts.getD ((findMax pts).2) (0, 0)] = 1 := by
        rw [hvk]
        simp
      have : 0 < List.count v (pts.take ((findMax pts).2)) := by omega
      exact List.count_pos_iff.mp this
  obtain ⟨j, hjlt, hjv⟩ := List.mem_iff_getElem.mp hjk
  have hjk' : j < (findMax pts).2 := by
    rw [List.length_take] at hjlt
    omega
  have hjlen : j < pts.length := by omega
  rw [List.getElem_take] at hjv
  rcases Nat.eq_zero_or_pos j with rfl | hj1
  · have h0 : pts[0] = pts.headD (0, 0) := by
      rw [headD_eq_getD, List.getD_eq_getElem _ _ hjlen]
    rw [← hjv, h0, lineDistSq_head_zero]
    exact hpos
  · have hfirst := findMax_first pts j hj1 hjk'
    rw [List.getD_eq_getElem _ _ hjlen, hjv] at hfirst
    exact hfirst

/-- Idempotence of the simplifier (for non-negative squared tolerance):
simplifying an already-simplified polyline with the same tolerance returns it
unchanged. -/
theorem dp_idem (pts : List Point) (epsSq : ℚ) (hε : 0 ≤ epsSq) :
    douglas_peucker (douglas_peucker pts epsSq) epsSq = douglas_peucker pts epsSq := by
  generalize hn : pts.length = n
  induction n using Nat.strong_induction_on generalizing pts with
  | _ n ih =>
    have hout := douglas_peucker_unfold pts epsSq hε
    by_cases hd : epsSq < (findMax pts).1
    · rw [if_pos hd] at hout
      have hpos : 0 < (findMax pts).1 := lt_of_le_of_lt hε hd
      obtain ⟨hi1, hi2, hval⟩ := findMax_pos_spec pts hpos
      have hlen3 : 3 ≤ pts.length := by omega
      have hklen : (findMax pts).2 < pts.length := by omega
      have hptsne : pts ≠ [] := by
        intro hcon
        rw [hcon] at hlen3
        simp at hlen3
      have htl : (pts.take ((findMax pts).2 + 1)).length = (findMax pts).2 + 1 := by
        rw [List.length_take]; omega
      have hdl : (pts.drop ((findMax pts).2)).length = pts.length - (findMax pts).2 :=
        List.length_drop _ _
      have htkne : pts.take ((findMax pts).2 + 1) ≠ [] := by
        intro hcon
        have := congrArg List.length hcon
        rw [htl] at this
        simp at this
      have hdrne : pts.drop ((findMax pts).2) ≠ [] := by
        intro hcon
        have := congrArg List.length hcon
        rw [hdl] at this
        simp at this
        omega
      set A := douglas_peucker (pts.take ((findMax pts).2 + 1)) epsSq with hA
      set B := douglas_peucker (pts.drop ((findMax pts).2)) epsSq with hB
      have hAlen : 2 ≤ A.length := douglas_peucker_length _ _
      have hBlen : 2 ≤ B.length := douglas_peucker_length _ _
      have hAne : A ≠ [] := by
        intro hcon
        rw [hcon] at hAlen
        simp at hAlen
      have htake : pts.take ((findMax pts).2 + 1) =
          pts.take ((findMax pts).2) ++ [pts.getD ((findMax pts).2) (0, 0)] :=
        take_succ_getD pts _ (0, 0) hklen
      have hBhead : B.head? = some (pts.getD ((findMax pts).2) (0, 0)) := by
        rw [hB, douglas_peucker_head? _ _ hdrne, List.head?_drop,
          List.getElem?_eq_getElem hklen, List.getD_eq_getElem _ _ hklen]
      have hAlast : A.getLast? = some (pts.getD ((findMax pts).2) (0, 0)) := by
        rw [hA, douglas_peucker_getLast? _ _ htkne, htake, List.getLast?_append]
        rfl
      have hout_headD : (A.dropLast ++ B).headD (0, 0) = pts.headD (0, 0) := by
        rw [List.headD_eq_head?, List.headD_eq_head?, ← hout,
          douglas_peucker_head? pts epsSq hptsne]
      have hout_lastD : (A.dropLast ++ B).getLastD (0, 0) = pts.getLastD (0, 0) := by
        rw [List.getLastD_eq_getLast?, List.getLastD_eq_getLast?, ← hout,
          douglas_peucker_getLast? pts epsSq hptsne]
      have hD : ∀ w, lineDistSq (A.dropLast ++ B) w = lineDistSq pts w := by
        intro w
        unfold lineDistSq
        rw [hout_headD, hout_lastD]
      have hout_len : (A.dropLast ++ B).length = A.length - 1 + B.length := by
        rw [List.length_append, List.length_dropLast]
      have hget_left : ∀ i, i < A.length - 1 →
          (A.dropLast ++ B).getD i (0, 0) = A.getD i (0, 0) := by
        intro i hi
        rw [List.getD_append _ _ _ i (by rw [List.length_dropLast]; omega)]
        rw [List.getD_eq_getElem _ _ (by rw [List.length_dropLast]; omega),
          List.getD_eq_getElem _ _ (by omega : i < A.length)]
        exact List.getElem_dropLast A i _
      have hget_right : ∀ i, A.length - 1 ≤ i →
          (A.dropLast ++ B).getD i (0, 0) = B.getD (i - (A.length - 1)) (0, 0) := by
        intro i hi
        rw [List.getD_append_right _ _ _ i (by rw [List.length_dropLast]; omega)]
        rw [List.length_dropLast]
      have hget_k : (A.dropLast ++ B).getD (A.length - 1) (0, 0) =
          pts.getD ((findMax pts).2) (0, 0) := by
        rw [hget_right (A.length - 1) (le_refl _), Nat.sub_self, ← headD_eq_getD,
          List.headD_eq_head?, hBhead]
        rfl
      have hf_k : lineDistSq pts ((A.dropLast ++ B).getD (A.length - 1) (0, 0)) =
          (findMax pts).1 := by
        rw [hget_k, ← hval]
      have hf_left : ∀ i, 1 ≤ i → i < A.length - 1 →
          lineDistSq pts ((A.dropLast ++ B).getD i (0, 0)) < (findMax pts).1 := by
        intro i hia hib
        rw [hget_left i hib]
        exact rec1_interior_lt pts epsSq hε hpos i hia hib
      have hf_right : ∀ i, A.length - 1 < i → i ≤ (A.dropLast ++ B).length - 2 →
          lineDistSq pts ((A.dropLast ++ B).getD i (0, 0)) ≤ (findMax pts).1 := by
        intro i hia hib
        rw [hout_len] at hib
        rw [hget_right i (by omega)]
        have hiB : i - (A.length - 1) < B.length := by omega
        have hmem : B.getD (i - (A.length - 1)) (0, 0) ∈ pts := by
          rw [List.getD_eq_getElem _ _ hiB]
          refine List.drop_subset ((findMax pts).2) pts ?_
          refine (douglas_peucker_sublist _ _ hε (by omega)).subset ?_
          rw [← hB]
          exact List.getElem_mem _
        exact lineDistSq_mem_le pts _ hmem hpos
      have hrange : List.range' 1 ((A.dropLast ++ B).length - 2) =
          List.range' 1 (A.length - 1 - 1) ++ (A.length - 1) ::
            List.range' (A.length - 1 + 1) ((A.dropLast ++ B).length - 2 - (A.length - 1)) := by
        rw [hout_len]
        have e1 : A.length - 1 + B.length - 2 =
            (A.length - 1 + B.length - 2 - (A.length - 1 - 1)) + (A.length - 1 - 1) := by
          omega
        rw [e1]
        rw [← List.range'_append 1 (A.length - 1 - 1)
          (A.length - 1 + B.length - 2 - (A.length - 1 - 1)) 1]
        congr 1
        have e3 : 1 + 1 * (A.length - 1 - 1) = A.length - 1 := by omega
        have e2 : A.length - 1 + B.length - 2 - (A.length - 1 - 1) =
            (A.length - 1 + B.length - 2 - (A.length - 1)) + 1 := by omega
        rw [e3, e2, List.range'_succ]
        congr 3
        omega
      have hscan : findMax (A.dropLast ++ B) = ((findMax pts).1, A.length - 1) := by
        rw [findMax_eq, hrange]
        rw [fm_pivot _ _ _ _ _ ?_ ?_ ?_]
        · congr 1
          rw [hD, hf_k]
        · intro i hi
          have hb := List.mem_range'_1.mp hi
          rw [hD, hD, hf_k]
          exact hf_left i hb.1 (by omega)
        · intro i hi
          have hb := List.mem_range'_1.mp hi
          rw [hD, hD, hf_k]
          exact hf_right i (by omega) (by omega)
        · rw [hD, hf_k]
          exact hpos
      have htake_out : (A.dropLast ++ B).take (A.length - 1 + 1) = A := by
        rw [List.take_append_eq_append_take]
        rw [List.take_of_length_le (by rw [List.length_dropLast]; omega)]
        have h2 : A.length - 1 + 1 - A.dropLast.length = 1 := by
          rw [List.length_dropLast]; omega
        rw [h2, List.take_one, hBhead]
        have hAg : A.getLast hAne = pts.getD ((findMax pts).2) (0, 0) := by
          have hh := List.getLast?_eq_getLast A hAne
          rw [hAlast] at hh
          exact (Option.some_inj.mp hh).symm
        rw [Option.toList_some, ← hAg]
        exact List.dropLast_append_getLast hAne
      have hdrop_out : (A.dropLast ++ B).drop (A.length - 1) = B := by
        rw [List.drop_append_eq_append_drop]
        rw [List.drop_eq_nil_of_le (by rw [List.length_dropLast])]
        have h2 : A.length - 1 - A.dropLast.length = 0 := by
          rw [List.length_dropLast]; omega
        rw [h2, List.drop_zero, List.nil_append]
      have hIA : douglas_peucker A epsSq = A := by
        rw [hA]
        exact ih ((findMax pts).2 + 1) (by omega) (pts.take ((findMax pts).2 + 1)) htl
      have hIB : douglas_peucker B epsSq = B := by
        rw [hB]
        exact ih (pts.length - (findMax pts).2) (by omega) (pts.drop ((findMax pts).2)) hdl
      rw [hout]
      rw [douglas_peucker_unfold _ _ hε, hscan]
      rw [if_pos (by simpa using hd)]
      simp only
      rw [htake_out, hdrop_out, hIA, hIB]
    · rw [if_neg hd] at hout
      rw [hout]
      rw [douglas_peucker_unfold _ _ hε]
      have hfm : findMax [pts.headD (0, 0), pts.getLastD (0, 0)] = (0, 0) := rfl
      rw [hfm]
      rw [if_neg (by simpa using not_lt_of_ge hε)]
      simp [List.getLastD_eq_getLast?]

/-- C7: the Douglas-Peucker simplifier is idempotent: for every input of at
least 2 points and every non-negative (squared) tolerance, simplifying the
output again with the same tolerance returns the output unchanged. -/
theorem C7_dp_idempotent (pts : List Point) (epsSq : ℚ)
    (hlen : 2 ≤ pts.length) (hε : 0 ≤ epsSq) :
    douglas_peucker (douglas_peucker pts epsSq) epsSq = douglas_peucker pts epsSq :=
  dp_idem pts epsSq hε

/-- Witness for C7 at a concrete input. -/
theorem C7_dp_idempotent_witness :
    douglas_peucker (douglas_peucker [((0 : ℚ), (0 : ℚ)), (1, 1), (2, 0)] 0) 0 =
      douglas_peucker [((0 : ℚ), (0 : ℚ)), (1, 1), (2, 0)] 0 :=
  C7_dp_idempotent [((0 : ℚ), (0 : ℚ)), (1, 1), (2, 0)] 0 (by simp) (le_refl 0)

/-- C10: the surviving points are exactly the raw points whose (lat, lon)
pair occurs anywhere in the simplified coordinate list, kept in their original
order (a subsequence of the raw list); consequently, with a duplicated
coordinate, the surviving sequence can be strictly longer than the
simplifier's output — witnessed by a 3-point track whose first coordinate is
duplicated: the simplifier returns 2 coordinates but 3 points survive. -/
theorem C10_surviving_points :
    (∀ (raw : List RawPoint) (p : RawPoint),
        p ∈ track_points raw ↔ p ∈ raw ∧ (p.lat, p.lon) ∈ simplified_coords raw) ∧
    (∀ raw : List RawPoint, (track_points raw).Sublist raw) ∧
    (track_points
        [⟨0, 0, 0, 0⟩, ⟨0, 0, 0, 1⟩, ⟨5, 5, 0, 2⟩]).length = 3 ∧
    (simplified_coords
        [⟨0, 0, 0, 0⟩, ⟨0, 0, 0, 1⟩, ⟨5, 5, 0, 2⟩]).length = 2 := by
  refine ⟨?_, ?_, ?_, ?_⟩
  · intro raw p
    simp [track_points, List.mem_filter]
  · intro raw
    exact List.filter_sublist raw
  · norm_num [track_points, simplified_coords, douglas_peucker, simplifyFuel, findMax,
      fmStep, perpendicular_distance_sq, epsSq0, List.range', List.filter]
  · norm_num [simplified_coords, douglas_peucker, simplifyFuel, findMax,
      fmStep, perpendicular_distance_sq, epsSq0, List.range']

/-- Counterexample for C3: a batch of two tracks where the first yields a
single surviving point.  The second track is perfectly processable on its own
(`processTrack` succeeds on it), yet the batch run aborts with the first
track's error and the second track is never processed — the loop has no
per-track handler, so the failure is *not* logged-and-skipped. -/
theorem C3_batch_abort_counterexample :
    processTrack [⟨0, 0, 0, 0⟩, ⟨1, 1, 0, 0⟩] =
      Except.ok [⟨0, 0, 0, 0⟩, ⟨1, 1, 0, 0⟩] ∧
    create_data_batch [[⟨0, 0, 0, 0⟩], [⟨0, 0, 0, 0⟩, ⟨1, 1, 0, 0⟩]] =
      Except.error "LineStrings must have at least 2 coordinate tuples" := by
  constructor
  · norm_num [processTrack, track_points, simplified_coords, douglas_peucker, simplifyFuel,
      findMax, fmStep, perpendicular_distance_sq, epsSq0, List.range', List.filter]
  · have h : (do
        let x ← (Except.error "LineStrings must have at least 2 coordinate tuples" :
          Except String (List RawPoint))
        Except.ok [x, [⟨0, 0, 0, 0⟩, ⟨1, 1, 0, 0⟩]]) =
          (Except.error "LineStrings must have at least 2 coordinate tuples" :
            Except String (List (List RawPoint))) := rfl
    norm_num [create_data_batch, List.mapM, List.mapM.loop, processTrack, track_points,
      simplified_coords, douglas_peucker, simplifyFuel,
      findMax, fmStep, perpendicular_distance_sq, epsSq0, List.range', List.filter, h]

/-- C3 as amended: a track with fewer than 2 raw points (hence fewer than 2
surviving points) makes its per-track computation raise; since the batch loop
has no handler, the whole run aborts with that error — however many correctly
processable tracks precede or follow it. -/
theorem C3_amended_batch_aborts (pre post : List (List RawPoint)) (bad : List RawPoint)
    (hbad : bad.length ≤ 1)
    (hpre : ∀ t ∈ pre, ∃ r, processTrack t = Except.ok r) :
    ∃ e, create_data_batch (pre ++ bad :: post) = Except.error e := by
  have hbaderr : ∃ e, processTrack bad = Except.error e := by
    match bad, hbad with
    | [], _ => exact ⟨"list index out of range", rfl⟩
    | [p], _ =>
      have hle : (track_points [p]).length ≤ 1 := by
        have h := List.length_filter_le
          (fun q => decide ((q.lat, q.lon) ∈ simplified_coords [p])) [p]
        simpa [track_points] using h
      exact ⟨"LineStrings must have at least 2 coordinate tuples", by
        simp [processTrack, show (track_points [p]).length < 2 by omega]⟩
  obtain ⟨e, he⟩ := hbaderr
  induction pre with
  | nil =>
    refine ⟨e, ?_⟩
    unfold create_data_batch
    rw [List.nil_append, List.mapM_cons, he]
    rfl
  | cons t pre ih =>
    obtain ⟨r, hr⟩ := hpre t (List.mem_cons_self t pre)
    obtain ⟨e', he'⟩ := ih (fun t' ht' => hpre t' (List.mem_cons_of_mem t ht'))
    refine ⟨e', ?_⟩
    unfold create_data_batch at he' ⊢
    rw [List.cons_append, List.mapM_cons, hr, he']
    rfl

/-- Witness for the amended C3 at a concrete batch: one good track followed by
a single-point track. -/
theorem C3_amended_batch_aborts_witness :
    ∃ e, create_data_batch
      [[⟨0, 0, 0, 0⟩, ⟨1, 1, 0, 0⟩], [⟨2, 2, 0, 0⟩]] = Except.error e := by
  refine C3_amended_batch_aborts [[⟨0, 0, 0, 0⟩, ⟨1, 1, 0, 0⟩]] [] [⟨2, 2, 0, 0⟩]
    (by simp) ?_
  intro t ht
  rw [List.mem_singleton] at ht
  subst ht
  refine ⟨[⟨0, 0, 0, 0⟩, ⟨1, 1, 0, 0⟩], ?_⟩
  norm_num [processTrack, track_points, simplified_coords, douglas_peucker, simplifyFuel,
    findMax, fmStep, perpendicular_distance_sq, epsSq0, List.range', List.filter]

theorem foldl_add_eq (g : ℕ → ℚ) (L : List ℕ) :
    ∀ c : ℚ, L.foldl (fun acc i => acc + g i) c = c + (L.map g).sum := by
  induction L with
  | nil => intro c; simp
  | cons x L ih =>
    intro c
    simp only [List.foldl_cons, List.map_cons, List.sum_cons]
    rw [ih (c + g x)]
    ring

theorem sum_map_milesOf (g : ℕ → ℚ) (L : List ℕ) :
    (L.map fun i => milesOf (g i)).sum = milesOf ((L.map g).sum) := by
  induction L with
  | nil => simp [milesOf]
  | cons x L ih =>
    simp only [List.map_cons, List.sum_cons, ih]
    unfold milesOf
    ring

/-- C5 as amended: the mile total is *exactly* the kilometre total divided by
1.609344 (i.e. multiplied by 0.62137119…), both accumulated independently
over the same consecutive pairs of surviving points — the spec's stated
factor `1/0.621371` is inverted. -/
theorem C5_amended_km_mi_ratio (dKm : Point → Point → ℚ) (pts : List RawPoint) :
    total_distance_mi dKm pts = milesOf (total_distance_km dKm pts) := by
  unfold total_distance_mi total_distance_km
  rw [foldl_add_eq, foldl_add_eq, sum_map_milesOf]
  simp [milesOf]

/-- Counterexample for C5 as stated: a 3-point track whose consecutive
kilometre distances are 5 km each.  The kilometre total times `1/0.621371`
differs from the mile total by far more than any rounding tolerance (the
reported values are rounded to 2 decimals, tolerance 0.01). -/
theorem C5_ratio_counterexample :
    ¬ |total_distance_km (fun _ _ => 5) [⟨0, 0, 0, 0⟩, ⟨1, 0, 0, 0⟩, ⟨2, 0, 0, 0⟩] *
        (1000000 / 621371) -
        total_distance_mi (fun _ _ => 5) [⟨0, 0, 0, 0⟩, ⟨1, 0, 0, 0⟩, ⟨2, 0, 0, 0⟩]| ≤
      1 / 100 := by
  have hkm : total_distance_km (fun _ _ => 5)
      [⟨0, 0, 0, 0⟩, ⟨1, 0, 0, 0⟩, ⟨2, 0, 0, 0⟩] = 10 := by
    norm_num [total_distance_km, List.range_succ]
  have hmi : total_distance_mi (fun _ _ => 5)
      [⟨0, 0, 0, 0⟩, ⟨1, 0, 0, 0⟩, ⟨2, 0, 0, 0⟩] = 10 / (1609344 / 1000000) := by
    norm_num [total_distance_mi, milesOf, List.range_succ]
  rw [hkm, hmi]
  rw [abs_of_pos (by norm_num)]
  norm_num

/-- C6 is the intent but the code drops whole days: on two surviving points
whose timestamps are 25 hours and half a second apart, the exact difference
floored to whole seconds is 90000 s, while the code's
`timedelta(seconds=duration.seconds)` reports 3600 s (the seconds-within-day
component).  The sub-second part alone is discarded only for durations below
24 hours. -/
theorem C6_duration_drops_days :
    reported_duration [⟨0, 0, 0, 0⟩, ⟨0, 0, 0, 180001 / 2⟩] = 3600 ∧
      (⌊(180001 / 2 : ℚ) - 0⌋ : ℤ) = 90000 ∧ (3600 : ℤ) ≠ 90000 := by
  have hfl : (⌊(180001 / 2 : ℚ) - 0⌋ : ℤ) = 90000 := by
    rw [sub_zero, Int.floor_eq_iff]
    constructor <;> norm_num
  refine ⟨?_, hfl, by norm_num⟩
  have hsh : reported_duration [⟨0, 0, 0, 0⟩, ⟨0, 0, 0, 180001 / 2⟩] =
      (⌊(180001 / 2 : ℚ) - 0⌋ : ℤ).emod 86400 := rfl
  rw [hsh, hfl]
  decide

theorem sevenpoint_length (e : List ℚ) : (sevenpoint e).length = e.length := by
  unfold sevenpoint
  rw [List.length_map, List.length_range]

theorem sevenpoint_getD (e : List ℚ) (i : ℕ) (h : i < e.length) :
    (sevenpoint e).getD i 0 =
      if i = 0 ∨ i = e.length - 1 then e.getD i 0
      else if i = 1 ∨ i = e.length - 1 - 1 then
        (e.getD i 0 + e.getD (i - 1) 0 + e.getD (i + 1) 0) / 3
      else if i = 2 ∨ i = e.length - 1 - 2 then
        (e.getD i 0 + e.getD (i - 1) 0 + e.getD (i - 2) 0 +
          e.getD (i + 1) 0 + e.getD (i + 2) 0) / 5
      else
        (e.getD i 0 + e.getD (i - 1) 0 + e.getD (i - 2) 0 + e.getD (i - 3) 0 +
          e.getD (i + 1) 0 + e.getD (i + 2) 0 + e.getD (i + 3) 0) / 7 := by
  unfold sevenpoint
  have hlen : i < ((List.range e.length).map fun idx =>
      if idx = 0 ∨ idx = e.length - 1 then e.getD idx 0
      else if idx = 1 ∨ idx = e.length - 1 - 1 then
        (e.getD idx 0 + e.getD (idx - 1) 0 + e.getD (idx + 1) 0) / 3
      else if idx = 2 ∨ idx = e.length - 1 - 2 then
        (e.getD idx 0 + e.getD (idx - 1) 0 + e.getD (idx - 2) 0 +
          e.getD (idx + 1) 0 + e.getD (idx + 2) 0) / 5
      else
        (e.getD idx 0 + e.getD (idx - 1) 0 + e.getD (idx - 2) 0 + e.getD (idx - 3) 0 +
          e.getD (idx + 1) 0 + e.getD (idx + 2) 0 + e.getD (idx + 3) 0) / 7).length := by
    rw [List.length_map, List.length_range]
    exact h
  rw [List.getD_eq_getElem _ _ hlen, List.getElem_map, List.getElem_range]

/-- C2: the smoothed elevation at each index follows the source's window
cascade — raw at the two ends, a 3-point window at indices `1` and `N-2`, a
5-point window at indices `2` and `N-3`, and at every other index the mean of
the seven indices `i-3 … i+3`; in particular, for a 9-point series the value
at index 4 is the mean of indices 1-7. -/
theorem C2_smoothing_window :
    (∀ (e : List ℚ) (i : ℕ), i < e.length →
      ((i = 0 ∨ i = e.length - 1) → (sevenpoint e).getD i 0 = e.getD i 0) ∧
      (¬(i = 0 ∨ i = e.length - 1) → (i = 1 ∨ i = e.length - 2) →
        (sevenpoint e).getD i 0 =
          (e.getD (i - 1) 0 + e.getD i 0 + e.getD (i + 1) 0) / 3) ∧
      (¬(i = 0 ∨ i = e.length - 1) → ¬(i = 1 ∨ i = e.length - 2) →
        (i = 2 ∨ i = e.length - 3) →
        (sevenpoint e).getD i 0 =
          (e.getD (i - 2) 0 + e.getD (i - 1) 0 + e.getD i 0 +
            e.getD (i + 1) 0 + e.getD (i + 2) 0) / 5) ∧
      (¬(i = 0 ∨ i = e.length - 1) → ¬(i = 1 ∨ i = e.length - 2) →
        ¬(i = 2 ∨ i = e.length - 3) →
        (sevenpoint e).getD i 0 =
          (e.getD (i - 3) 0 + e.getD (i - 2) 0 + e.getD (i - 1) 0 + e.getD i 0 +
            e.getD (i + 1) 0 + e.getD (i + 2) 0 + e.getD (i + 3) 0) / 7)) ∧
    (∀ e : List ℚ, e.length = 9 →
      (sevenpoint e).getD 4 0 =
        (e.getD 1 0 + e.getD 2 0 + e.getD 3 0 + e.getD 4 0 + e.getD 5 0 +
          e.getD 6 0 + e.getD 7 0) / 7) := by
  have h21 : ∀ m : ℕ, m - 1 - 1 = m - 2 := by intro m; omega
  have h31 : ∀ m : ℕ, m - 1 - 2 = m - 3 := by intro m; omega
  constructor
  · intro e i h
    rw [sevenpoint_getD e i h, h21, h31]
    refine ⟨?_, ?_, ?_, ?_⟩
    · intro h0
      rw [if_pos h0]
    · intro h0 h1
      rw [if_neg h0, if_pos h1]
      ring
    · intro h0 h1 h2
      rw [if_neg h0, if_neg h1, if_pos h2]
      ring
    · intro h0 h1 h2
      rw [if_neg h0, if_neg h1, if_neg h2]
      ring
  · intro e h9
    rw [sevenpoint_getD e 4 (by omega)]
    rw [h9]
    norm_num
    ring

/-- Witness for C2 on a concrete 9-point series. -/
theorem C2_smoothing_window_witness :
    (sevenpoint [0, 7, 14, 21, 28, 35, 42, 49, 56]).getD 4 0 =
      ((7 : ℚ) + 14 + 21 + 28 + 35 + 42 + 49) / 7 := by
  have h := C2_smoothing_window.2 [0, 7, 14, 21, 28, 35, 42, 49, 56] (by simp)
  simpa [List.getD] using h

set_option maxRecDepth 10000 in
/-- On a strictly increasing elevation series of at least 7 points, the
smoothed series is strictly increasing (case analysis over the window
cascade). -/
theorem sevenpoint_strict_of_strict (e : List ℚ) (hlen : 7 ≤ e.length)
    (hmono : ∀ j k, j < k → k < e.length → e.getD j 0 < e.getD k 0) :
    ∀ i, i + 1 < e.length →
      (sevenpoint e).getD i 0 < (sevenpoint e).getD (i + 1) 0 := by
  obtain ⟨n, hN⟩ : ∃ n, e.length = n + 7 := ⟨e.length - 7, by omega⟩
  intro i hi
  have hm : ∀ j k : ℕ, j < k → k < n + 7 → e.getD j 0 < e.getD k 0 := by
    intro j k hjk hk
    exact hmono j k hjk (by omega)
  rw [sevenpoint_getD e i (by omega), sevenpoint_getD e (i + 1) (by omega), hN]
  rw [hN] at hi
  by_cases h0 : i = 0
  · subst h0
    have f1 := hm 0 1 (by omega) (by omega)
    have f2 := hm 0 2 (by omega) (by omega)
    rw [if_pos (show 0 = 0 ∨ 0 = n + 7 - 1 by omega),
      if_neg (show ¬(0 + 1 = 0 ∨ 0 + 1 = n + 7 - 1) by omega),
      if_pos (show 0 + 1 = 1 ∨ 0 + 1 = n + 7 - 1 - 1 by omega)]
    simp only [show (0 : ℕ) + 1 = 1 from rfl,
      show (1 : ℕ) - 1 = 0 from rfl,
      show (1 : ℕ) + 1 = 2 from rfl]
    linarith
  by_cases h1 : i = 1
  · subst h1
    have f1 := hm 0 2 (by omega) (by omega)
    have f2 := hm 1 2 (by omega) (by omega)
    have f3 := hm 2 3 (by omega) (by omega)
    have f4 := hm 3 4 (by omega) (by omega)
    rw [if_neg (show ¬(1 = 0 ∨ 1 = n + 7 - 1) by omega),
      if_pos (show 1 = 1 ∨ 1 = n + 7 - 1 - 1 by omega),
      if_neg (show ¬(1 + 1 = 0 ∨ 1 + 1 = n + 7 - 1) by omega),
      if_neg (show ¬(1 + 1 = 1 ∨ 1 + 1 = n + 7 - 1 - 1) by omega),
      if_pos (show 1 + 1 = 2 ∨ 1 + 1 = n + 7 - 1 - 2 by omega)]
    simp only [show (1 : ℕ) + 1 = 2 from rfl,
      show (1 : ℕ) - 1 = 0 from rfl,
      show (2 : ℕ) - 1 = 1 from rfl,
      show (2 : ℕ) - 2 = 0 from rfl,
      show (2 : ℕ) + 1 = 3 from rfl,
      show (2 : ℕ) + 2 = 4 from rfl]
    linarith
  by_cases h2 : i = 2
  · subst h2
    have f1 := hm 0 4 (by omega) (by omega)
    have f2 := hm 1 4 (by omega) (by omega)
    have f3 := hm 2 4 (by omega) (by omega)
    have f4 := hm 3 4 (by omega) (by omega)
    have f5 := hm 4 5 (by omega) (by omega)
    have f6 := hm 5 6 (by omega) (by omega)
    rw [if_neg (show ¬(2 = 0 ∨ 2 = n + 7 - 1) by omega),
      if_neg (show ¬(2 = 1 ∨ 2 = n + 7 - 1 - 1) by omega),
      if_pos (show 2 = 2 ∨ 2 = n + 7 - 1 - 2 by omega),
      if_neg (show ¬(2 + 1 = 0 ∨ 2 + 1 = n + 7 - 1) by omega),
      if_neg (show ¬(2 + 1 = 1 ∨ 2 + 1 = n + 7 - 1 - 1) by omega),
      if_neg (show ¬(2 + 1 = 2 ∨ 2 + 1 = n + 7 - 1 - 2) by omega)]
    simp only [show (2 : ℕ) + 1 = 3 from rfl,
      show (2 : ℕ) - 1 = 1 from rfl,
      show (2 : ℕ) - 2 = 0 from rfl,
      show (2 : ℕ) + 2 = 4 from rfl,
      show (3 : ℕ) - 1 = 2 from rfl,
      show (3 : ℕ) - 2 = 1 from rfl,
      show (3 : ℕ) - 3 = 0 from rfl,
      show (3 : ℕ) + 1 = 4 from rfl,
      show (3 : ℕ) + 2 = 5 from rfl,
      show (3 : ℕ) + 3 = 6 from rfl]
    linarith
  by_cases hmid : i ≤ n + 2
  · obtain ⟨j, rfl⟩ : ∃ j, i = j + 3 := ⟨i - 3, by omega⟩
    have f := hm j (j + 7) (by omega) (by omega)
    rw [if_neg (show ¬(j + 3 = 0 ∨ j + 3 = n + 7 - 1) by omega),
      if_neg (show ¬(j + 3 = 1 ∨ j + 3 = n + 7 - 1 - 1) by omega),
      if_neg (show ¬(j + 3 = 2 ∨ j + 3 = n + 7 - 1 - 2) by omega),
      if_neg (show ¬(j + 3 + 1 = 0 ∨ j + 3 + 1 = n + 7 - 1) by omega),
      if_neg (show ¬(j + 3 + 1 = 1 ∨ j + 3 + 1 = n + 7 - 1 - 1) by omega),
      if_neg (show ¬(j + 3 + 1 = 2 ∨ j + 3 + 1 = n + 7 - 1 - 2) by omega)]
    simp only [Nat.add_assoc, show ∀ j : ℕ, j + 3 - 1 = j + 2 from fun _ => rfl,
      show ∀ j : ℕ, j + 3 - 2 = j + 1 from fun _ => rfl,
      show ∀ j : ℕ, j + 3 - 3 = j from fun _ => rfl,
      show ∀ j : ℕ, j + 4 - 1 = j + 3 from fun _ => rfl,
      show ∀ j : ℕ, j + 4 - 2 = j + 2 from fun _ => rfl,
      show ∀ j : ℕ, j + 4 - 3 = j + 1 from fun _ => rfl]
    linarith
  have c01 := hm n (n + 1) (by omega) (by omega)
  have c12 := hm (n + 1) (n + 2) (by omega) (by omega)
  have c23 := hm (n + 2) (n + 3) (by omega) (by omega)
  have c34 := hm (n + 3) (n + 4) (by omega) (by omega)
  have c45 := hm (n + 4) (n + 5) (by omega) (by omega)
  have c56 := hm (n + 5) (n + 6) (by omega) (by omega)
  have hcase : i = n + 3 ∨ i = n + 4 ∨ i = n + 5 := by omega
  rcases hcase with rfl | rfl | rfl
  ·
    rw [if_neg (show ¬(n + 3 = 0 ∨ n + 3 = n + 7 - 1) by omega),
      if_neg (show ¬(n + 3 = 1 ∨ n + 3 = n + 7 - 1 - 1) by omega),
      if_neg (show ¬(n + 3 = 2 ∨ n + 3 = n + 7 - 1 - 2) by omega),
      if_neg (show ¬(n + 3 + 1 = 0 ∨ n + 3 + 1 = n + 7 - 1) by omega),
      if_neg (show ¬(n + 3 + 1 = 1 ∨ n + 3 + 1 = n + 7 - 1 - 1) by omega),
      if_pos (show n + 3 + 1 = 2 ∨ n + 3 + 1 = n + 7 - 1 - 2 by omega)]
    simp only [Nat.add_assoc, show ∀ n : ℕ, n + 3 - 1 = n + 2 from fun _ => rfl,
      show ∀ n : ℕ, n + 3 - 2 = n + 1 from fun _ => rfl,
      show ∀ n : ℕ, n + 3 - 3 = n from fun _ => rfl,
      show ∀ n : ℕ, n + 4 - 1 = n + 3 from fun _ => rfl,
      show ∀ n : ℕ, n + 4 - 2 = n + 2 from fun _ => rfl]
    linarith
  ·
    rw [if_neg (show ¬(n + 4 = 0 ∨ n + 4 = n + 7 - 1) by omega),
      if_neg (show ¬(n + 4 = 1 ∨ n + 4 = n + 7 - 1 - 1) by omega),
      if_pos (show n + 4 = 2 ∨ n + 4 = n + 7 - 1 - 2 by omega),
      if_neg (show ¬(n + 4 + 1 = 0 ∨ n + 4 + 1 = n + 7 - 1) by omega),
      if_pos (show n + 4 + 1 = 1 ∨ n + 4 + 1 = n + 7 - 1 - 1 by omega)]
    simp only [Nat.add_assoc, show ∀ n : ℕ, n + 4 - 1 = n + 3 from fun _ => rfl,
      show ∀ n : ℕ, n + 4 - 2 = n + 2 from fun _ => rfl,
      show ∀ n : ℕ, n + 5 - 1 = n + 4 from fun _ => rfl]
    linarith
  ·
    rw [if_neg (show ¬(n + 5 = 0 ∨ n + 5 = n + 7 - 1) by omega),
      if_pos (show n + 5 = 1 ∨ n + 5 = n + 7 - 1 - 1 by omega),
      if_pos (show n + 5 + 1 = 0 ∨ n + 5 + 1 = n + 7 - 1 by omega)]
    simp only [Nat.add_assoc, show ∀ n : ℕ, n + 5 - 1 = n + 4 from fun _ => rfl,
      show ∀ n : ℕ, n + 6 - 1 = n + 5 from fun _ => rfl]
    linarith

/-- Smoothing a constant elevation series gives the same constant at every
index. -/
theorem sevenpoint_const (e : List ℚ) (c : ℚ) (h : ∀ j, j < e.length → e.getD j 0 = c) :
    ∀ j, j < e.length → (sevenpoint e).getD j 0 = c := by
  intro j hj
  rw [sevenpoint_getD e j hj]
  split_ifs with h1 h2 h3
  · exact h j hj
  · rw [h j hj, h (j - 1) (by omega), h (j + 1) (by omega)]
    ring
  · rw [h j hj, h (j - 1) (by omega), h (j - 2) (by omega),
      h (j + 1) (by omega), h (j + 2) (by omega)]
    ring
  · rw [h j hj, h (j - 1) (by omega), h (j - 2) (by omega), h (j - 3) (by omega),
      h (j + 1) (by omega), h (j + 2) (by omega), h (j + 3) (by omega)]
    ring

/-- If no step changes the smoothed value, the accumulation loop is inert. -/
theorem ad_stay (s : List ℚ) (L : List ℕ) :
    ∀ acc : ℚ × ℚ, (∀ i ∈ L, i ≠ 0 → s.getD i 0 = s.getD (i - 1) 0) →
      L.foldl (adStep s) acc = acc := by
  induction L with
  | nil => intro acc _; rfl
  | cons x L ih =>
    intro acc hL
    simp only [List.foldl_cons]
    have hstep : adStep s acc x = acc := by
      unfold adStep
      by_cases hx : x = 0
      · simp [hx]
      · have h0 : s.getD x 0 - s.getD (x - 1) 0 = 0 := by
          rw [hL x (List.mem_cons_self x L) hx]
          ring
        have hc1 : ¬(0 < s.getD x 0 - s.getD (x - 1) 0) := by
          rw [h0]
          exact lt_irrefl 0
        have hc2 : ¬(s.getD x 0 - s.getD (x - 1) 0 < 0) := by
          rw [h0]
          exact lt_irrefl 0
        rw [if_pos hx, if_neg hc1, if_neg hc2]
    rw [hstep]
    exact ih acc fun i hi => hL i (List.mem_cons_of_mem x hi)

/-- If every non-zero visited index has a strictly positive change, the
descent stays untouched and the ascent strictly grows once a non-zero index
is visited. -/
theorem ad_pos (s : List ℚ) (L : List ℕ) :
    ∀ acc : ℚ × ℚ, (∀ i ∈ L, i ≠ 0 → s.getD (i - 1) 0 < s.getD i 0) →
      (L.foldl (adStep s) acc).2 = acc.2 ∧ acc.1 ≤ (L.foldl (adStep s) acc).1 ∧
        ((∃ i ∈ L, i ≠ 0) → acc.1 < (L.foldl (adStep s) acc).1) := by
  induction L with
  | nil =>
    intro acc _
    refine ⟨rfl, le_refl _, ?_⟩
    rintro ⟨i, hi, _⟩
    simp at hi
  | cons x L ih =>
    intro acc hL
    have hLtail : ∀ i ∈ L, i ≠ 0 → s.getD (i - 1) 0 < s.getD i 0 :=
      fun i hi => hL i (List.mem_cons_of_mem x hi)
    simp only [List.foldl_cons]
    by_cases hx : x = 0
    · have hstep : adStep s acc x = acc := by
        unfold adStep
        simp [hx]
      rw [hstep]
      obtain ⟨ha, hb, hc⟩ := ih acc hLtail
      refine ⟨ha, hb, ?_⟩
      rintro ⟨i, hi, hine⟩
      rcases List.mem_cons.mp hi with rfl | hiL
      · exact absurd hx hine
      · exact hc ⟨i, hiL, hine⟩
    · have hd : 0 < s.getD x 0 - s.getD (x - 1) 0 := by
        have := hL x (List.mem_cons_self x L) hx
        linarith
      have hstep : adStep s acc x =
          (acc.1 + (s.getD x 0 - s.getD (x - 1) 0), acc.2) := by
        unfold adStep
        rw [if_pos hx, if_pos hd]
      rw [hstep]
      obtain ⟨ha, hb, _⟩ :=
        ih (acc.1 + (s.getD x 0 - s.getD (x - 1) 0), acc.2) hLtail
      dsimp only at hb
      exact ⟨ha, by linarith, fun _ => by linarith⟩

/-- C9: on at least 7 surviving points with strictly increasing raw
elevations, the accumulated descent is 0 and the accumulated ascent is
strictly positive; on a constant elevation series both accumulators are 0. -/
theorem C9_ascent_descent :
    (∀ e : List ℚ, 7 ≤ e.length →
      (∀ j k, j < k → k < e.length → e.getD j 0 < e.getD k 0) →
      (ascent_descent (sevenpoint e)).2 = 0 ∧
        0 < (ascent_descent (sevenpoint e)).1) ∧
    (∀ (e : List ℚ) (c : ℚ), (∀ j, j < e.length → e.getD j 0 = c) →
      ascent_descent (sevenpoint e) = (0, 0)) := by
  constructor
  · intro e hlen hmono
    have hstrict := sevenpoint_strict_of_strict e hlen hmono
    have hslen : (sevenpoint e).length = e.length := sevenpoint_length e
    unfold ascent_descent
    have hfold := ad_pos (sevenpoint e) (List.range (sevenpoint e).length)
      ((0 : ℚ), (0 : ℚ)) ?_
    · refine ⟨hfold.1, ?_⟩
      refine hfold.2.2 ⟨1, ?_, by omega⟩
      rw [List.mem_range, hslen]
      omega
    · intro i hi hine
      rw [List.mem_range, hslen] at hi
      have := hstrict (i - 1) (by omega)
      have hrw : i - 1 + 1 = i := by omega
      rw [hrw] at this
      exact this
  · intro e c hconst
    have hs := sevenpoint_const e c hconst
    have hslen : (sevenpoint e).length = e.length := sevenpoint_length e
    unfold ascent_descent
    rw [ad_stay (sevenpoint e) (List.range (sevenpoint e).length) ((0 : ℚ), (0 : ℚ)) ?_]
    intro i hi hine
    rw [List.mem_range, hslen] at hi
    rw [hs i (by omega), hs (i - 1) (by omega)]

/-- Witness for C9: the strictly increasing series 0..6 and the constant
series [5, 5, 5]. -/
theorem C9_ascent_descent_witness :
    ((ascent_descent (sevenpoint [0, 1, 2, 3, 4, 5, 6])).2 = 0 ∧
      0 < (ascent_descent (sevenpoint [0, 1, 2, 3, 4, 5, 6])).1) ∧
    ascent_descent (sevenpoint [5, 5, 5]) = (0, 0) := by
  constructor
  · refine C9_ascent_descent.1 [0, 1, 2, 3, 4, 5, 6] (by simp) ?_
    intro j k hjk hk
    simp only [List.length_cons, List.length_nil] at hk
    interval_cases k <;> interval_cases j <;>
      norm_num [List.getD_cons_succ, List.getD_cons_zero]
  · refine C9_ascent_descent.2 [5, 5, 5] 5 ?_
    intro j hj
    simp only [List.length_cons, List.length_nil] at hj
    interval_cases j <;> norm_num [List.getD_cons_succ, List.getD_cons_zero]

/-! ## Colour assignment -/

theorem assignStep_fold (i : ℕ) :
    ∀ (fs pre : List LFeature) (c : ℕ),
      fs.foldl
        (fun (acc : List LFeature × ℕ) f =>
          if f.1 = i then
            (acc.1 ++ [(f.1, some (colours.getD (acc.2 % colours.length) ""))], acc.2 + 1)
          else
            (acc.1 ++ [f], acc.2))
        (pre, c) =
      (pre ++ stepMap i c fs, c + fs.countP (fun f => f.1 == i)) := by
  intro fs
  induction fs with
  | nil => intro pre c; simp [stepMap]
  | cons f fs ih =>
    intro pre c
    simp only [List.foldl_cons]
    by_cases hf : f.1 = i
    · have hsm : stepMap i c (f :: fs) =
          (f.1, some (colours.getD (c % colours.length) "")) :: stepMap i (c + 1) fs := by
        simp only [stepMap]
        rw [if_pos hf]
      rw [if_pos hf, ih, hsm, List.countP_cons,
        if_pos (show ((f.1 == i) = true) by simp [hf])]
      simp only [Prod.mk.injEq]
      constructor
      · rw [List.append_assoc]
        rfl
      · omega
    · have hsm : stepMap i c (f :: fs) = f :: stepMap i c fs := by
        simp only [stepMap]
        rw [if_neg hf]
      rw [if_neg hf, ih, hsm, List.countP_cons,
        if_neg (show ¬((f.1 == i) = true) by simp [hf])]
      simp only [Prod.mk.injEq]
      constructor
      · rw [List.append_assoc]
        rfl
      · omega

theorem assignStep_eq_stepMap (fs : List LFeature) (i : ℕ) :
    assignStep fs i = stepMap i 0 fs := by
  unfold assignStep
  rw [assignStep_fold]
  rfl

theorem stepMap_map_fst (i : ℕ) :
    ∀ (c : ℕ) (fs : List LFeature),
      (stepMap i c fs).map Prod.fst = fs.map Prod.fst := by
  intro c fs
  induction fs generalizing c with
  | nil => rfl
  | cons f fs ih =>
    simp only [stepMap]
    by_cases hf : f.1 = i
    · rw [if_pos hf]
      simp only [List.map_cons, ih]
    · rw [if_neg hf]
      simp only [List.map_cons, ih]

theorem stepMap_length (i : ℕ) (c : ℕ) (fs : List LFeature) :
    (stepMap i c fs).length = fs.length := by
  have h := congrArg List.length (stepMap_map_fst i c fs)
  simpa using h

theorem stepMap_getD (i : ℕ) :
    ∀ (fs : List LFeature) (c j : ℕ), j < fs.length →
      (stepMap i c fs).getD j (0, none) =
        if (fs.getD j (0, none)).1 = i then
          ((fs.getD j (0, none)).1,
            some (colours.getD
              ((c + (fs.take j).countP (fun f => f.1 == i)) % colours.length) ""))
        else fs.getD j (0, none) := by
  intro fs
  induction fs with
  | nil => intro c j hj; simp at hj
  | cons f fs ih =>
    intro c j hj
    match j with
    | 0 =>
      simp only [stepMap]
      by_cases hf : f.1 = i
      · rw [if_pos hf]
        simp [hf]
      · rw [if_neg hf]
        simp [hf]
    | j + 1 =>
      have hj' : j < fs.length := by
        simp only [List.length_cons] at hj
        omega
      have hcnt : ((f :: fs).take (j + 1)).countP (fun g => g.1 == i) =
          (fs.take j).countP (fun g => g.1 == i) + (if f.1 = i then 1 else 0) := by
        rw [List.take_succ_cons, List.countP_cons]
        by_cases hf : f.1 = i
        · rw [if_pos hf, if_pos (by simp [hf] : ((f.1 == i) = true))]
        · rw [if_neg hf, if_neg (by simp [hf] : ¬((f.1 == i) = true))]
      have hgd : (f :: fs).getD (j + 1) (0, none) = fs.getD j (0, none) :=
        List.getD_cons_succ
      simp only [stepMap]
      by_cases hf : f.1 = i
      · rw [if_pos hf]
        rw [List.getD_cons_succ, ih (c + 1) j hj', hgd, hcnt, if_pos hf]
        by_cases hg : (fs.getD j (0, none)).1 = i
        · rw [if_pos hg, if_pos hg]
          have harith : c + 1 + (fs.take j).countP (fun g => g.1 == i) =
              c + ((fs.take j).countP (fun g => g.1 == i) + 1) := by omega
          rw [harith]
        · rw [if_neg hg, if_neg hg]
      · rw [if_neg hf]
        rw [List.getD_cons_succ, ih c j hj', hgd, hcnt, if_neg hf]
        by_cases hg : (fs.getD j (0, none)).1 = i
        · rw [if_pos hg, if_pos hg]
          have harith : c + (fs.take j).countP (fun g => g.1 == i) =
              c + ((fs.take j).countP (fun g => g.1 == i) + 0) := by omega
          rw [harith]
        · rw [if_neg hg, if_neg hg]

theorem assignStep_map_fst (fs : List LFeature) (i : ℕ) :
    (assignStep fs i).map Prod.fst = fs.map Prod.fst := by
  rw [assignStep_eq_stepMap]
  exact stepMap_map_fst i 0 fs

theorem assignStep_length (fs : List LFeature) (i : ℕ) :
    (assignStep fs i).length = fs.length := by
  rw [assignStep_eq_stepMap]
  exact stepMap_length i 0 fs

theorem getD_fst_eq_of_map_fst (xs ys : List LFeature)
    (h : xs.map Prod.fst = ys.map Prod.fst) (j : ℕ) :
    (xs.getD j (0, none)).1 = (ys.getD j (0, none)).1 := by
  have h1 : (xs.map Prod.fst).getD j 0 = (xs.getD j (0, none)).1 :=
    List.getD_map xs (0, none) Prod.fst
  have h2 : (ys.map Prod.fst).getD j 0 = (ys.getD j (0, none)).1 :=
    List.getD_map ys (0, none) Prod.fst
  rw [← h1, ← h2, h]

theorem countP_take_eq_of_map_fst (xs ys : List LFeature)
    (h : xs.map Prod.fst = ys.map Prod.fst) (j l : ℕ) :
    (xs.take j).countP (fun f => f.1 == l) =
      (ys.take j).countP (fun f => f.1 == l) := by
  have hx : ((xs.take j).map Prod.fst).countP (fun a => a == l) =
      (xs.take j).countP (fun f => f.1 == l) :=
    List.countP_map _ _ _
  have hy : ((ys.take j).map Prod.fst).countP (fun a => a == l) =
      (ys.take j).countP (fun f => f.1 == l) :=
    List.countP_map _ _ _
  rw [← hx, ← hy, List.map_take, List.map_take, h]

/-- Characterisation of the whole colour loop: a feature whose cluster label
is among the visited labels ends up with `colours[rank mod 11]` where `rank`
is the number of earlier features of the same cluster; a feature whose label
is never visited is untouched.  (Each pass only recolours its own cluster and
preserves every label.) -/
theorem foldl_assignStep_getD (L : List ℕ) :
    ∀ (fs : List LFeature) (j : ℕ), j < fs.length → L.Nodup →
      ((fs.getD j (0, none)).1 ∈ L →
        (L.foldl assignStep fs).getD j (0, none) =
          ((fs.getD j (0, none)).1,
            some (colours.getD
              (((fs.take j).countP (fun f => f.1 == (fs.getD j (0, none)).1)) %
                colours.length) ""))) ∧
      ((fs.getD j (0, none)).1 ∉ L →
        (L.foldl assignStep fs).getD j (0, none) = fs.getD j (0, none)) := by
  induction L with
  | nil =>
    intro fs j hj _
    exact ⟨fun h => absurd h (List.not_mem_nil _), fun _ => rfl⟩
  | cons x L ih =>
    intro fs j hj hnd
    have hndL : L.Nodup := (List.nodup_cons.mp hnd).2
    have hxL : x ∉ L := (List.nodup_cons.mp hnd).1
    have hmapfst : (assignStep fs x).map Prod.fst = fs.map Prod.fst :=
      assignStep_map_fst fs x
    have hlen' : (assignStep fs x).length = fs.length := assignStep_length fs x
    have hfst : ((assignStep fs x).getD j (0, none)).1 = (fs.getD j (0, none)).1 :=
      getD_fst_eq_of_map_fst _ fs hmapfst j
    have hcnt : ∀ l, ((assignStep fs x).take j).countP (fun f => f.1 == l) =
        (fs.take j).countP (fun f => f.1 == l) :=
      fun l => countP_take_eq_of_map_fst _ fs hmapfst j l
    have hstep : (assignStep fs x).getD j (0, none) =
        if (fs.getD j (0, none)).1 = x then
          ((fs.getD j (0, none)).1,
            some (colours.getD
              ((0 + (fs.take j).countP (fun f => f.1 == x)) % colours.length) ""))
        else fs.getD j (0, none) := by
      rw [assignStep_eq_stepMap]
      exact stepMap_getD x fs 0 j hj
    simp only [List.foldl_cons]
    obtain ⟨ihmem, ihnot⟩ := ih (assignStep fs x) j (by omega) hndL
    constructor
    · intro hmem
      rcases List.mem_cons.mp hmem with heq | hmemL
      · have hlab' : ((assignStep fs x).getD j (0, none)).1 ∉ L := by
          rw [hfst, heq]
          exact hxL
        rw [ihnot hlab', hstep, if_pos heq]
        rw [heq, Nat.zero_add]
      · have hlabne : (fs.getD j (0, none)).1 ≠ x := fun hcon => hxL (hcon ▸ hmemL)
        have hfs'j : (assignStep fs x).getD j (0, none) = fs.getD j (0, none) := by
          rw [hstep, if_neg hlabne]
        have hres := ihmem (by rw [hfst]; exact hmemL)
        rw [hres, hfs'j, hcnt]
    · intro hnot
      have hne : (fs.getD j (0, none)).1 ≠ x := fun hcon => hnot (hcon ▸ List.mem_cons_self x L)
      have hnotL : ((assignStep fs x).getD j (0, none)).1 ∉ L := by
        rw [hfst]
        exact fun hc => hnot (List.mem_cons_of_mem x hc)
      rw [ihnot hnotL, hstep, if_neg hne]

/-- C4: colour assignment is round-robin per cluster.  With every cluster
label below `num_clusters` (as KMeans guarantees), the `k`-th track of a
cluster — counting in the original feature order, restarting at 0 per
cluster — receives `colours[k % 11]`; consequently two distinct tracks of a
common cluster with at most 11 members never share a colour. -/
theorem C4_cluster_colours (numClusters : ℕ) (fs : List LFeature)
    (hlab : ∀ f ∈ fs, f.1 < numClusters) :
    (∀ j, j < fs.length →
      (assignColours numClusters fs).getD j (0, none) =
        ((fs.getD j (0, none)).1,
          some (colours.getD
            (((fs.take j).countP (fun f => f.1 == (fs.getD j (0, none)).1)) %
              colours.length) ""))) ∧
    (∀ j₁ j₂, j₁ < j₂ → j₂ < fs.length →
      (fs.getD j₁ (0, none)).1 = (fs.getD j₂ (0, none)).1 →
      fs.countP (fun f => f.1 == (fs.getD j₁ (0, none)).1) ≤ colours.length →
      ((assignColours numClusters fs).getD j₁ (0, none)).2 ≠
        ((assignColours numClusters fs).getD j₂ (0, none)).2) := by
  have hchar : ∀ j, j < fs.length →
      (assignColours numClusters fs).getD j (0, none) =
        ((fs.getD j (0, none)).1,
          some (colours.getD
            (((fs.take j).countP (fun f => f.1 == (fs.getD j (0, none)).1)) %
              colours.length) "")) := by
    intro j hj
    have hmem : (fs.getD j (0, none)).1 ∈ List.range numClusters := by
      rw [List.mem_range]
      refine hlab _ ?_
      rw [List.getD_eq_getElem _ _ hj]
      exact List.getElem_mem _
    exact (foldl_assignStep_getD (List.range numClusters) fs j hj
      (List.nodup_range _)).1 hmem
  refine ⟨hchar, ?_⟩
  intro j₁ j₂ h12 hj2 hlabeq hcount
  have hj1 : j₁ < fs.length := by omega
  have hc1 := hchar j₁ hj1
  have hc2 := hchar j₂ hj2
  rw [← hlabeq] at hc2
  have hsucc1 : (fs.take (j₁ + 1)).countP
      (fun f => f.1 == (fs.getD j₁ (0, none)).1) =
      (fs.take j₁).countP (fun f => f.1 == (fs.getD j₁ (0, none)).1) + 1 := by
    rw [take_succ_getD fs j₁ (0, none) hj1, List.countP_append, List.countP_cons]
    simp
  have hsucc2 : (fs.take (j₂ + 1)).countP
      (fun f => f.1 == (fs.getD j₁ (0, none)).1) =
      (fs.take j₂).countP (fun f => f.1 == (fs.getD j₁ (0, none)).1) + 1 := by
    rw [take_succ_getD fs j₂ (0, none) hj2, List.countP_append, List.countP_cons,
      List.countP_nil,
      if_pos (show ((fs.getD j₂ (0, none)).1 == (fs.getD j₁ (0, none)).1) = true by
        rw [hlabeq]; exact beq_self_eq_true _)]
  have hr12 : (fs.take j₁).countP (fun f => f.1 == (fs.getD j₁ (0, none)).1) <
      (fs.take j₂).countP (fun f => f.1 == (fs.getD j₁ (0, none)).1) := by
    have hsub : (fs.take (j₁ + 1)).Sublist (fs.take j₂) := by
      have heq : fs.take (j₁ + 1) = (fs.take j₂).take (j₁ + 1) := by
        rw [List.take_take]
        congr 1
        omega
      rw [heq]
      exact List.take_sublist _ _
    have hle := hsub.countP_le (fun f => f.1 == (fs.getD j₁ (0, none)).1)
    omega
  have hr2top : (fs.take j₂).countP (fun f => f.1 == (fs.getD j₁ (0, none)).1) + 1 ≤
      fs.countP (fun f => f.1 == (fs.getD j₁ (0, none)).1) := by
    have hsub : (fs.take (j₂ + 1)).Sublist fs := List.take_sublist _ _
    have hle := hsub.countP_le (fun f => f.1 == (fs.getD j₁ (0, none)).1)
    omega
  have hr1lt : (fs.take j₁).countP (fun f => f.1 == (fs.getD j₁ (0, none)).1) <
      colours.length := by omega
  have hr2lt : (fs.take j₂).countP (fun f => f.1 == (fs.getD j₁ (0, none)).1) <
      colours.length := by omega
  rw [hc1, hc2]
  simp only
  intro hcon
  have hcv : colours.getD
      ((fs.take j₁).countP (fun f => f.1 == (fs.getD j₁ (0, none)).1) %
        colours.length) "" =
      colours.getD
      ((fs.take j₂).countP (fun f => f.1 == (fs.getD j₁ (0, none)).1) %
        colours.length) "" := by
    exact Option.some_inj.mp hcon
  rw [Nat.mod_eq_of_lt hr1lt, Nat.mod_eq_of_lt hr2lt] at hcv
  rw [List.getD_eq_getElem _ _ hr1lt, List.getD_eq_getElem _ _ hr2lt] at hcv
  have hnodup : colours.Nodup := by decide
  have := (hnodup.getElem_inj_iff).mp hcv
  omega

/-- Witness for C4: three features in two clusters; the first and third are
in cluster 0, and they receive different colours. -/
theorem C4_cluster_colours_witness :
    ((assignColours 2 [((0 : ℕ), (none : Option String)), (1, none), (0, none)]).getD 0
        (0, none)).2 ≠
      ((assignColours 2 [((0 : ℕ), (none : Option String)), (1, none), (0, none)]).getD 2
        (0, none)).2 := by
  refine (C4_cluster_colours 2 [((0 : ℕ), (none : Option String)), (1, none), (0, none)]
    ?_).2 0 2 (by omega) (by simp) ?_ ?_
  · intro f hf
    simp only [List.mem_cons, List.not_mem_nil, or_false] at hf
    rcases hf with rfl | rfl | rfl <;> norm_num
  · norm_num [List.getD_cons_zero, List.getD_cons_succ]
  · norm_num [List.countP_cons, List.countP_nil, List.getD_cons_zero,
      List.getD_cons_succ, colours]
